import Mathlib

/-!
# The sidekick cache store (`sidekick/middleware/cache/store.go`)

A shallow embedding of the hybrid memory + disk cache store and the properties
of its operations `NewStore`, `Get`, `Set`, `Purge`, `Flush` and `List`.

* The Go maps `map[string]*MemCacheItem` and `map[int]*string` are association
  lists without duplicate keys (`AList`); a missing key reads as `nil`.
* The disk is the directory tree found at `loc`; the calls of package `os` that
  the store makes are functions on that tree.  A call can also fail for a reason
  that the tree does not show (permissions, a full disk, a name the file system
  refuses): the `Faults` argument says which calls do.
* A Go `string` that is a key or a file name is a `String`; the bytes of a chunk are a
  list of bytes.
* `time.Now().Unix()` is the argument `now` of the operations that read the clock, an
  `int64`; the `int` of the TTL and of a chunk index is 64 bits wide.
* The logger only observes; it is left out.
-/

namespace Cache

/-- A byte string: a `[]byte`, or a Go `string` that holds a chunk's bytes. -/
abbrev Bytes := List UInt8

/-- The bytes of an ASCII string literal such as `"a"`. -/
def ascii (s : String) : Bytes := s.data.map (fun c => c.toNat.toUInt8)

/-! ## The directory tree at `loc` -/

/-- A file with its content, or a directory with its named entries. -/
inductive Node where
  | file (content : Bytes)
  | dir (entries : List (String × Node))

/-- A path below `loc`, as the list of its `/`-separated components. -/
abbrev Path := List String

/-- The entry named `c` of a directory's entries. -/
def lookupEntry (c : String) : List (String × Node) → Option Node
  | [] => none
  | (k, n) :: es => if k = c then some n else lookupEntry c es

/-- The entries without the one named `c`. -/
def eraseEntry (c : String) : List (String × Node) → List (String × Node)
  | [] => []
  | (k, n) :: es => if k = c then eraseEntry c es else (k, n) :: eraseEntry c es

/-- The entries with the one named `c` set to `n`. -/
def putEntry (c : String) (n : Node) (es : List (String × Node)) : List (String × Node) :=
  (c, n) :: eraseEntry c es

/-- The node at a path of entry names, when there is one. -/
def Node.get : Node → Path → Option Node
  | n, [] => some n
  | .file _, _ :: _ => none
  | .dir es, c :: cs =>
    match lookupEntry c es with
    | some n => n.get cs
    | none => none

/-- The tree with the node at a path of entry names set to `new`; the parent of
the path has to be a directory of the tree, otherwise nothing changes. -/
def Node.put : Node → Path → Node → Node
  | _, [], new => new
  | .file b, _ :: _, _ => .file b
  | .dir es, c :: cs, new =>
    match cs with
    | [] => .dir (putEntry c new es)
    | _ :: _ =>
      match lookupEntry c es with
      | some n => .dir (putEntry c (n.put cs new) es)
      | none => .dir es

/-- The tree without the node at a path of entry names (and all below it). -/
def Node.del : Node → Path → Node
  | t, [] => t
  | .file b, _ :: _ => .file b
  | .dir es, c :: cs =>
    match cs with
    | [] => .dir (eraseEntry c es)
    | _ :: _ =>
      match lookupEntry c es with
      | some n => .dir (putEntry c (n.del cs) es)
      | none => .dir es

/-- Whether the node is a directory (`IsDir()`). -/
def Node.isDir : Node → Bool
  | .file _ => false
  | .dir _ => true

/-- The error numbers of the calls below. -/
inductive Errno where
  | ENOENT
  | ENOTDIR
  | EISDIR
  | ENOTEMPTY
  | EINVAL
  | EACCES
  deriving DecidableEq, Repr

/-- Path resolution as the kernel does it: an empty component and `.` stay in
the directory reached so far, `..` goes to its parent, any other component
names an entry.  Each step needs the path so far to be a directory; the last
component may name an entry that does not exist yet. -/
def canon (t : Node) : Path → Path → Except Errno Path
  | cur, [] => .ok cur
  | cur, c :: cs =>
    match t.get cur with
    | none => .error .ENOENT
    | some (.file _) => .error .ENOTDIR
    | some (.dir _) =>
      if c = "" ∨ c = "." then canon t cur cs
      else if c = ".." then canon t cur.dropLast cs
      else canon t (cur ++ [c]) cs

/-- The calls of package `os` that the store makes. -/
inductive Syscall where
  | MkdirAll
  | ReadDir
  | ReadFile
  | WriteFile
  | Stat
  | Remove
  | RemoveAll
  deriving DecidableEq, Repr

/-- The calls that fail for a reason outside the tree: `fl call path` is `true`
when `call` on `path` fails, and then the call changes nothing.  The one call
that goes on after a failure is `os.RemoveAll`: there `fl .RemoveAll q` says
that the entry at `q` cannot be unlinked (or, when there is none, not be looked
up), and the call removes the rest. -/
abbrev Faults := Syscall → Path → Bool

/-- The environment in which no call fails for an outside reason. -/
def noFaults : Faults := fun _ _ => false

namespace os

/-- The model of `os.Stat`: the node a path resolves to. -/
def Stat (fl : Faults) (t : Node) (p : Path) : Except Errno Node :=
  if fl .Stat p then .error .EACCES
  else
    match canon t [] p with
    | .error e => .error e
    | .ok cp =>
      match t.get cp with
      | none => .error .ENOENT
      | some n => .ok n

/-- The order of a directory listing: by file name, byte by byte. -/
def nameLE (a b : String × Bool) : Bool := decide (a.1.data ≤ b.1.data)

/-- The model of `os.ReadDir`: the entries of a directory, each with its name
and whether it is a directory, sorted by name. -/
def ReadDir (fl : Faults) (t : Node) (p : Path) : Except Errno (List (String × Bool)) :=
  if fl .ReadDir p then .error .EACCES
  else
    match canon t [] p with
    | .error e => .error e
    | .ok cp =>
      match t.get cp with
      | none => .error .ENOENT
      | some (.file _) => .error .ENOTDIR
      | some (.dir es) =>
        .ok (List.insertionSort (fun a b => nameLE a b = true) (es.map (fun e => (e.1, e.2.isDir))))

/-- The model of `os.ReadFile`: the content of a file. -/
def ReadFile (fl : Faults) (t : Node) (p : Path) : Except Errno Bytes :=
  if fl .ReadFile p then .error .EACCES
  else
    match canon t [] p with
    | .error e => .error e
    | .ok cp =>
      match t.get cp with
      | none => .error .ENOENT
      | some (.dir _) => .error .EISDIR
      | some (.file b) => .ok b

/-- The directories of a path created from the top, starting below `cur`; the
result is the new tree and the error, if any. -/
def mkdirAllFrom : Node → Path → Path → Node × Option Errno
  | t, cur, [] =>
    match t.get cur with
    | some (.dir _) => (t, none)
    | some (.file _) => (t, some .ENOTDIR)
    | none => (t, some .ENOENT)
  | t, cur, c :: cs =>
    match t.get cur with
    | none => (t, some .ENOENT)
    | some (.file _) => (t, some .ENOTDIR)
    | some (.dir _) =>
      if c = "" ∨ c = "." then mkdirAllFrom t cur cs
      else if c = ".." then mkdirAllFrom t cur.dropLast cs
      else
        match t.get (cur ++ [c]) with
        | some _ => mkdirAllFrom t (cur ++ [c]) cs
        | none => mkdirAllFrom (t.put (cur ++ [c]) (.dir [])) (cur ++ [c]) cs

/-- The model of `os.MkdirAll`: every missing directory of the path is created;
the call fails at a component that exists and is not a directory. -/
def MkdirAll (fl : Faults) (t : Node) (p : Path) : Node × Option Errno :=
  if fl .MkdirAll p then (t, some .EACCES) else mkdirAllFrom t [] p

/-- The model of `os.WriteFile`: the file is created or truncated, and holds
`data` afterwards; its directory has to exist. -/
def WriteFile (fl : Faults) (t : Node) (p : Path) (data : Bytes) : Node × Option Errno :=
  if fl .WriteFile p then (t, some .EACCES)
  else
    match canon t [] p with
    | .error e => (t, some e)
    | .ok [] => (t, some .EISDIR)
    | .ok (c :: cs) =>
      match t.get (c :: cs) with
      | some (.dir _) => (t, some .EISDIR)
      | _ => (t.put (c :: cs) (.file data), none)

/-- The model of `os.Remove`: a file or an empty directory is removed. -/
def Remove (fl : Faults) (t : Node) (p : Path) : Node × Option Errno :=
  if fl .Remove p then (t, some .EACCES)
  else
    match canon t [] p with
    | .error e => (t, some e)
    | .ok [] => (t, some .EINVAL)
    | .ok (c :: cs) =>
      match t.get (c :: cs) with
      | none => (t, some .ENOENT)
      | some (.file _) => (t.del (c :: cs), none)
      | some (.dir []) => (t.del (c :: cs), none)
      | some (.dir (_ :: _)) => (t, some .ENOTEMPTY)

mutual
/-- What `os.RemoveAll` leaves of the node at path `p`: nothing when the node
could be removed.  A file is unlinked; the entries of a directory are removed
one after the other, whether or not some of them fail, and then the directory
itself, which needs it to be empty.  `fl .RemoveAll q` says that the entry at
`q` cannot be unlinked. -/
def removeAllFrom (fl : Faults) : Path → Node → Option Node
  | p, .file b => if fl .RemoveAll p then some (.file b) else none
  | p, .dir es =>
    match removeAllEntries fl p es with
    | [] => if fl .RemoveAll p then some (.dir []) else none
    | e :: rest => some (.dir (e :: rest))
/-- The entries of the directory at `p` that are left. -/
def removeAllEntries (fl : Faults) : Path → List (String × Node) → List (String × Node)
  | _, [] => []
  | p, (k, n) :: es =>
    match removeAllFrom fl (p ++ [k]) n with
    | none => removeAllEntries fl p es
    | some n1 => (k, n1) :: removeAllEntries fl p es
end

/-- The model of `os.RemoveAll`: the node and all below it are removed; a path
that does not exist is no error, unless the look-up of the path fails.  The
call removes what it can: when an entry cannot be removed, the call fails, and
that entry and the directories above it are what is left. -/
def RemoveAll (fl : Faults) (t : Node) (p : Path) : Node × Option Errno :=
  match canon t [] p with
  | .error .ENOENT => (t, none)
  | .error e => (t, some e)
  | .ok [] => (t, some .EINVAL)
  | .ok (c :: cs) =>
    match t.get (c :: cs) with
    | none => if fl .RemoveAll (c :: cs) then (t, some .EACCES) else (t, none)
    | some n =>
      match removeAllFrom fl (c :: cs) n with
      | none => (t.del (c :: cs), none)
      | some n1 => (t.put (c :: cs) n1, some .EACCES)

end os

/-! ## The store -/

/-- The constant `CACHE_DIR`. -/
def CACHE_DIR : String := "sidekick-cache"

/-- The struct `MemCacheItem`: the chunks by index, and the creation time. -/
structure MemCacheItem where
  content : AList (fun _ : Int => Bytes)
  timestamp : Int

/-- The struct `Store`.  The field `loc` is the directory tree at that
location, `disk`; the logger is left out. -/
structure Store where
  disk : Node
  ttl : Int
  memCache : AList (fun _ : String => MemCacheItem)

/-- The errors the store returns: `errors.New("Cache expired")`,
`errors.New("Key not found in cache")`, and the error of a call of `os`. -/
inductive Error where
  | cacheExpired
  | keyNotFound
  | pathError (e : Errno)
  deriving DecidableEq, Repr

/-- The value of `strings.ReplaceAll(key, "/", "+")`: every `/` becomes `+`. -/
def sanitize (key : String) : String :=
  ⟨key.data.map (fun c => if c = '/' then '+' else c)⟩

/-- The value of `strconv.Itoa(idx)`: the decimal numeral of `idx`. -/
def Itoa (idx : Int) : String := toString idx

/-- A subtraction of `int64` values, which wraps around. -/
def subInt64 (a b : Int) : Int := (a - b + 2 ^ 63) % 2 ^ 64 - 2 ^ 63

/-- The inner loop of `NewStore`, `for idx, pageFile := range pageFiles`: the
content of each file that can be read is stored at `idx`, the position of the
file in the listing. -/
def hydrateFiles (fl : Faults) (t : Node) (name : String) :
    List (String × Bool) → Nat → AList (fun _ : Int => Bytes) → AList (fun _ : Int => Bytes)
  | [], _, content => content
  | pageFile :: rest, idx, content =>
    if !pageFile.2 then
      match os.ReadFile fl t [CACHE_DIR, name, pageFile.1] with
      | .error _ => hydrateFiles fl t name rest (idx + 1) content
      | .ok value => hydrateFiles fl t name rest (idx + 1) (content.insert (idx : Int) value)
    else hydrateFiles fl t name rest (idx + 1) content

/-- The outer loop of `NewStore`, `for _, file := range files`: every directory
that can be listed becomes an entry stamped with the current time. -/
def hydrateDirs (fl : Faults) (t : Node) (now : Int) :
    List (String × Bool) → AList (fun _ : String => MemCacheItem) →
      AList (fun _ : String => MemCacheItem)
  | [], memCache => memCache
  | file :: rest, memCache =>
    if file.2 then
      match os.ReadDir fl t [CACHE_DIR, file.1] with
      | .error _ => hydrateDirs fl t now rest memCache
      | .ok pageFiles =>
        hydrateDirs fl t now rest
          (memCache.insert file.1
            { content := hydrateFiles fl t file.1 pageFiles 0 ∅, timestamp := now })
    else hydrateDirs fl t now rest memCache

/-- The function `NewStore`: the cache directory is created (a failure is
ignored) and the memory index is loaded from it.  `loc` is the tree at the
location and `now` the clock during the load. -/
def NewStore (fl : Faults) (loc : Node) (ttl : Int) (now : Int) : Store :=
  let disk := (os.MkdirAll fl loc [CACHE_DIR]).1
  let memCache :=
    match os.ReadDir fl disk [CACHE_DIR] with
    | .ok files => hydrateDirs fl disk now files ∅
    | .error _ => ∅
  { disk := disk, ttl := ttl, memCache := memCache }

/-- The loop of the memory path of `Get`,
`for idx := 0; idx < len(content); idx++`: the chunks at the indices below the
number of chunks, a missing one skipped. -/
def joinChunks (content : AList (fun _ : Int => Bytes)) : Bytes :=
  (List.range content.entries.length).foldl
    (fun (acc : Bytes) (idx : Nat) =>
      match content.lookup (idx : Int) with
      | none => acc
      | some chunk => acc ++ chunk)
    []

/-- The loop of the disk path of `Get`, `for _, file := range files`: the
contents of the files in the order of the listing; a file that cannot be read
ends the call. -/
def readFiles (fl : Faults) (t : Node) (key : String) :
    List (String × Bool) → Bytes → Except Error Bytes
  | [], content => .ok content
  | file :: rest, content =>
    if !file.2 then
      match os.ReadFile fl t [CACHE_DIR, key, file.1] with
      | .error _ => .error .keyNotFound
      | .ok value => readFiles fl t key rest (content ++ value)
    else readFiles fl t key rest content

/-- The method `Get`.  The purge that an expired entry starts with
`go d.Purge(key)` runs on its own later; it is a call of `Purge`. -/
def Store.Get (d : Store) (fl : Faults) (now : Int) (key : String) : Except Error Bytes :=
  let key := sanitize key
  match d.memCache.lookup key with
  | some item =>
    if subInt64 now item.timestamp > d.ttl then .error .cacheExpired
    else .ok (joinChunks item.content)
  | none =>
    match os.ReadDir fl d.disk [CACHE_DIR, key] with
    | .error _ => .error .keyNotFound
    | .ok files => readFiles fl d.disk key files []

/-- The method `Set`: the new store and the returned error. -/
def Store.Set (d : Store) (fl : Faults) (now : Int) (key : String) (idx : Int)
    (value : Bytes) : Store × Option Error :=
  let key := sanitize key
  let item : MemCacheItem :=
    match d.memCache.lookup key with
    | some item => item
    | none => { content := ∅, timestamp := now }
  let memCache := d.memCache.insert key { item with content := item.content.insert idx value }
  let disk1 := (os.MkdirAll fl d.disk [CACHE_DIR, key]).1
  let disk2 := (os.WriteFile fl disk1 [CACHE_DIR, key, Itoa idx] value).1
  ({ d with memCache := memCache, disk := disk2 }, none)

/-- The last component of `removeLoc+variant+key`, where `removeLoc` is
`d.loc+"/"+CACHE_DIR+"/."`. -/
def removeName (variant key : String) : String := "." ++ variant ++ key

/-- The part of `Purge` for one variant on disk: when `os.Stat` finds the
path, `os.Remove` is called on it. -/
def purgeDisk (fl : Faults) (t : Node) (variant key : String) : Node :=
  match os.Stat fl t [CACHE_DIR, removeName variant key] with
  | .ok _ => (os.Remove fl t [CACHE_DIR, removeName variant key]).1
  | .error _ => t

/-- The method `Purge`. -/
def Store.Purge (d : Store) (fl : Faults) (key : String) : Store :=
  let key := sanitize key
  let memCache := (d.memCache.erase ("br::" ++ key)).erase ("gzip::" ++ key)
  let disk1 := purgeDisk fl d.disk "br::" key
  let disk2 := purgeDisk fl disk1 "gzip::" key
  { d with memCache := memCache, disk := disk2 }

/-- The method `Flush`: the new store and the returned error. -/
def Store.Flush (d : Store) (fl : Faults) : Store × Option Error :=
  match os.RemoveAll fl d.disk [CACHE_DIR] with
  | (disk1, none) =>
    ({ d with memCache := ∅, disk := (os.MkdirAll fl disk1 [CACHE_DIR]).1 }, none)
  | (disk1, some e) => ({ d with memCache := ∅, disk := disk1 }, some (.pathError e))

/-- A call of `Set`, with the environment and the clock reading it runs in. -/
structure SetCall where
  fl : Faults
  now : Int
  key : String
  idx : Int
  value : Bytes

/-- The store after a sequence of `Set` calls. -/
def Store.SetAll (d : Store) : List SetCall → Store
  | [] => d
  | c :: cs => ((d.Set c.fl c.now c.key c.idx c.value).1).SetAll cs

/-- The chunk map after the writes of a sequence of calls. -/
def insertAll (content : AList (fun _ : Int => Bytes)) (calls : List SetCall) :
    AList (fun _ : Int => Bytes) :=
  calls.foldl (fun m x => m.insert x.idx x.value) content

/-- A store with an empty index over an empty location. -/
def emptyStore (ttl : Int) : Store := { disk := .dir [], ttl := ttl, memCache := ∅ }

/-- Whether a name can be the name of a directory entry: the empty name, `.` and
`..` are resolved by the kernel and never name an entry. -/
def isEntryName (s : String) : Bool := decide (s ≠ "" ∧ s ≠ "." ∧ s ≠ "..")

/-- The environment in which exactly the calls of one kind fail. -/
def failing (call : Syscall) : Faults := fun c _ => decide (c = call)

/-- The environment in which exactly the entry at `q` cannot be unlinked by
`os.RemoveAll`. -/
def unremovable (q : Path) : Faults := fun c p => decide (c = .RemoveAll ∧ p = q)

mutual
/-- Whether a tree is one a file system can hold: in every directory the names
are entry names and no two entries share a name. -/
def Node.wf : Node → Bool
  | .file _ => true
  | .dir es => wfEntries es
/-- The entries of a directory of such a tree. -/
def wfEntries : List (String × Node) → Bool
  | [] => true
  | (k, n) :: es => isEntryName k && (lookupEntry k es).isNone && n.wf && wfEntries es
end

/-- The content of a file as `os.ReadFile` gives it, empty when the call fails. -/
def fileBytes (fl : Faults) (t : Node) (p : Path) : Bytes :=
  match os.ReadFile fl t p with
  | .ok b => b
  | .error _ => []

/-- A call of `Set` or of `Purge` on one key, with the environment it runs in
and, for `Set`, the clock reading. -/
inductive KeyOp where
  | set (fl : Faults) (now : Int) (idx : Int) (value : Bytes)
  | purge (fl : Faults)

/-- The store after a sequence of `Set` and `Purge` calls on the key. -/
def Store.applyOps (d : Store) (key : String) : List KeyOp → Store
  | [] => d
  | .set fl now idx value :: ops => ((d.Set fl now key idx value).1).applyOps key ops
  | .purge fl :: ops => (d.Purge fl key).applyOps key ops

/-- The map that `List` returns: its entries `"mem"` and `"disk"`. -/
structure Listing where
  mem : List String
  disk : List String

/-- The loop of `List` over the cache directory, `for _, file := range files`:
the name of an entry is appended when the entry is not a directory. -/
def listDisk : List (String × Bool) → List String → List String
  | [], disk => disk
  | file :: rest, disk =>
    if !file.2 then listDisk rest (disk ++ [file.1]) else listDisk rest disk

/-- The method `List`.  The keys of the memory index come in the order in
which the map is walked, which Go leaves open; here it is the order of the
association list. -/
def Store.List (d : Store) (fl : Faults) : Listing :=
  { mem := d.memCache.keys
    disk :=
      match os.ReadDir fl d.disk [CACHE_DIR] with
      | .ok files => listDisk files []
      | .error _ => [] }

/-- What a path shows of a node: a directory, or a file with its content. -/
def Node.kind : Node → Option Bytes
  | .file b => some b
  | .dir _ => none

/-- What the tree holds at a path of entry names: nothing, a directory, or a
file with its content. -/
def Node.kindAt (t : Node) (p : Path) : Option (Option Bytes) := (t.get p).map Node.kind

/-- The directories that `os.MkdirAll` makes when they are missing. -/
def mkdirPaths : Path → Path → List Path
  | _, [] => []
  | cur, c :: cs =>
    if c = "" ∨ c = "." then mkdirPaths cur cs
    else if c = ".." then mkdirPaths cur.dropLast cs
    else (cur ++ [c]) :: mkdirPaths (cur ++ [c]) cs

/-- The listing of the chunk files `0` to `n-1`, in the order of their indices. -/
def chunkListing (n : Nat) : List (String × Bool) :=
  (List.range n).map (fun (i : Nat) => (Itoa (i : Int), false))

/-- The entries of a key directory after the chunk files of a sequence of calls
were written into it. -/
def putAll (es : List (String × Node)) (calls : List SetCall) : List (String × Node) :=
  calls.foldl (fun es x => putEntry (Itoa x.idx) (.file x.value) es) es

/-- Eleven `Set` calls on the key `k`, which write the chunks `a` to `j` and `K`
at the indices 0 to 10. -/
def elevenCalls : List SetCall :=
  [⟨noFaults, 100, "k", 0, ascii "a"⟩, ⟨noFaults, 100, "k", 1, ascii "b"⟩,
   ⟨noFaults, 100, "k", 2, ascii "c"⟩, ⟨noFaults, 100, "k", 3, ascii "d"⟩,
   ⟨noFaults, 100, "k", 4, ascii "e"⟩, ⟨noFaults, 100, "k", 5, ascii "f"⟩,
   ⟨noFaults, 100, "k", 6, ascii "g"⟩, ⟨noFaults, 100, "k", 7, ascii "h"⟩,
   ⟨noFaults, 100, "k", 8, ascii "i"⟩, ⟨noFaults, 100, "k", 9, ascii "j"⟩,
   ⟨noFaults, 100, "k", 10, ascii "K"⟩]

/-! ## The directory tree -/

theorem lookupEntry_eraseEntry_self (c : String) (es : List (String × Node)) :
    lookupEntry c (eraseEntry c es) = none := by
  induction es with
  | nil => rfl
  | cons e es ih =>
    obtain ⟨k, n⟩ := e
    by_cases h : k = c
    · simp [eraseEntry, h, ih]
    · simp [eraseEntry, lookupEntry, h, ih]

theorem lookupEntry_eraseEntry_of_ne (c c' : String) (es : List (String × Node)) (h : c' ≠ c) :
    lookupEntry c' (eraseEntry c es) = lookupEntry c' es := by
  induction es with
  | nil => rfl
  | cons e es ih =>
    obtain ⟨k, n⟩ := e
    by_cases hk : k = c
    · have hk' : k ≠ c' := fun h' => h (h'.symm.trans hk)
      rw [eraseEntry, if_pos hk, lookupEntry, if_neg hk', ih]
    · rw [eraseEntry, if_neg hk, lookupEntry, lookupEntry, ih]

theorem mem_of_lookupEntry (c : String) (n : Node) (es : List (String × Node))
    (h : lookupEntry c es = some n) : (c, n) ∈ es := by
  induction es with
  | nil => simp [lookupEntry] at h
  | cons e es ih =>
    obtain ⟨k, m⟩ := e
    by_cases hk : k = c
    · simp [lookupEntry, hk] at h
      simp [hk, h]
    · simp [lookupEntry, hk] at h
      exact List.mem_cons_of_mem _ (ih h)

theorem CACHE_DIR_isEntryName : ¬ (CACHE_DIR = "" ∨ CACHE_DIR = ".") ∧ CACHE_DIR ≠ ".." := by
  decide

theorem isEntryName_iff (s : String) :
    isEntryName s = true ↔ ¬ (s = "" ∨ s = ".") ∧ s ≠ ".." := by
  simp [isEntryName, not_or]
  tauto

theorem get_nil (t : Node) : t.get [] = some t := by
  cases t <;> rfl

theorem eraseEntry_of_lookupEntry_none (c : String) (es : List (String × Node))
    (h : lookupEntry c es = none) : eraseEntry c es = es := by
  induction es with
  | nil => rfl
  | cons e es ih =>
    obtain ⟨k, n⟩ := e
    by_cases hk : k = c
    · simp [lookupEntry, hk] at h
    · simp only [lookupEntry, if_neg hk] at h
      rw [eraseEntry, if_neg hk, ih h]

/-- The call of `os.RemoveAll` on the cache directory, by what the location
holds. -/
theorem RemoveAll_cache_eq (fl : Faults) (es : List (String × Node)) :
    os.RemoveAll fl (.dir es) [CACHE_DIR] =
      match lookupEntry CACHE_DIR es with
      | none => if fl .RemoveAll [CACHE_DIR] then (.dir es, some .EACCES) else (.dir es, none)
      | some n =>
        match os.removeAllFrom fl [CACHE_DIR] n with
        | none => (.dir (eraseEntry CACHE_DIR es), none)
        | some n1 => (.dir (putEntry CACHE_DIR n1 es), some .EACCES) := by
  unfold os.RemoveAll
  simp only [canon, Node.get, CACHE_DIR_isEntryName.1, CACHE_DIR_isEntryName.2, if_false,
    List.nil_append]
  cases hl : lookupEntry CACHE_DIR es with
  | none => rfl
  | some n =>
    simp only [get_nil]
    cases os.removeAllFrom fl [CACHE_DIR] n <;> rfl

/-- The removal of the cache directory fails when the location is a file. -/
theorem RemoveAll_cache_of_file (fl : Faults) (b : Bytes) :
    os.RemoveAll fl (.file b) [CACHE_DIR] = (.file b, some .ENOTDIR) := by
  simp [os.RemoveAll, canon, Node.get]

/-- A call of `os.RemoveAll` on the cache directory that succeeds: the location
is a directory, and its entry `sidekick-cache` is gone. -/
theorem RemoveAll_cache_of_ok (fl : Faults) (t : Node)
    (h : (os.RemoveAll fl t [CACHE_DIR]).2 = none) :
    ∃ es, t = .dir es ∧ (os.RemoveAll fl t [CACHE_DIR]).1 = .dir (eraseEntry CACHE_DIR es) := by
  cases t with
  | file b => rw [RemoveAll_cache_of_file] at h; cases h
  | dir es =>
    refine ⟨es, rfl, ?_⟩
    rw [RemoveAll_cache_eq] at h ⊢
    cases hl : lookupEntry CACHE_DIR es with
    | none =>
      simp only [hl] at h ⊢
      by_cases hf : fl .RemoveAll [CACHE_DIR] = true
      · rw [if_pos hf] at h; cases h
      · rw [if_neg hf, eraseEntry_of_lookupEntry_none _ _ hl]
    | some n =>
      simp only [hl] at h ⊢
      cases hr : os.removeAllFrom fl [CACHE_DIR] n with
      | none => simp only [hr]
      | some n1 => simp only [hr] at h; cases h

/-- The cache directory as `os.MkdirAll` leaves it after it was removed: it is
there and empty when the call succeeds, and missing when the call fails. -/
theorem MkdirAll_cache_of_erased (fl : Faults) (es : List (String × Node)) :
    (os.MkdirAll fl (.dir (eraseEntry CACHE_DIR es)) [CACHE_DIR]).1 =
      if fl .MkdirAll [CACHE_DIR] = true then .dir (eraseEntry CACHE_DIR es)
      else .dir (putEntry CACHE_DIR (.dir []) (eraseEntry CACHE_DIR es)) := by
  unfold os.MkdirAll
  by_cases hf : fl .MkdirAll [CACHE_DIR] = true
  · rw [if_pos hf, if_pos hf]
  · rw [if_neg hf, if_neg hf]
    simp [os.mkdirAllFrom, Node.get, CACHE_DIR_isEntryName.1, CACHE_DIR_isEntryName.2,
      lookupEntry_eraseEntry_self, Node.put, putEntry, lookupEntry]

/-- The store after a `Flush` whose removal succeeds. -/
theorem Flush_of_ok (d : Store) (fl : Faults)
    (h : (os.RemoveAll fl d.disk [CACHE_DIR]).2 = none) :
    ∃ es, (d.Flush fl).2 = none ∧ (d.Flush fl).1.memCache = ∅ ∧
      (d.Flush fl).1.disk =
        if fl .MkdirAll [CACHE_DIR] = true then .dir (eraseEntry CACHE_DIR es)
        else .dir (putEntry CACHE_DIR (.dir []) (eraseEntry CACHE_DIR es)) := by
  obtain ⟨es, _, h1⟩ := RemoveAll_cache_of_ok fl d.disk h
  refine ⟨es, ?_⟩
  have hpair : os.RemoveAll fl d.disk [CACHE_DIR] = (.dir (eraseEntry CACHE_DIR es), none) :=
    Prod.ext h1 h
  simp [Store.Flush, hpair, MkdirAll_cache_of_erased]

/-- The disk path of `Get` finds nothing for a key that names an entry when the
cache directory is missing or empty. -/
theorem ReadDir_key_of_flushed (fl : Faults) (es : List (String × Node)) (s : String)
    (hs : isEntryName s = true) (t : Node)
    (ht : t = .dir (eraseEntry CACHE_DIR es) ∨
      t = .dir (putEntry CACHE_DIR (.dir []) (eraseEntry CACHE_DIR es))) :
    ∃ e, os.ReadDir fl t [CACHE_DIR, s] = .error e := by
  have hs' := (isEntryName_iff s).1 hs
  unfold os.ReadDir
  by_cases hf : fl .ReadDir [CACHE_DIR, s] = true
  · exact ⟨_, by rw [if_pos hf]⟩
  · rw [if_neg hf]
    rcases ht with rfl | rfl
    · exact ⟨.ENOENT, by
        simp [canon, Node.get, CACHE_DIR_isEntryName.1, CACHE_DIR_isEntryName.2,
          lookupEntry_eraseEntry_self]⟩
    · exact ⟨.ENOENT, by
        simp [canon, Node.get, CACHE_DIR_isEntryName.1, CACHE_DIR_isEntryName.2,
          putEntry, lookupEntry, hs'.1, hs'.2]⟩

theorem get_append (p q : Path) (t : Node) :
    t.get (p ++ q) = (t.get p).bind (fun n => n.get q) := by
  induction p generalizing t with
  | nil => simp [get_nil]
  | cons c cs ih =>
    cases t with
    | file b => simp [Node.get]
    | dir es =>
      simp only [List.cons_append, Node.get]
      cases lookupEntry c es with
      | none => rfl
      | some n => exact ih n

theorem get_snoc (p : Path) (c : String) (t : Node) (es : List (String × Node))
    (h : t.get p = some (.dir es)) : t.get (p ++ [c]) = lookupEntry c es := by
  rw [get_append, h]
  simp only [Option.bind, Node.get]
  cases lookupEntry c es with
  | none => rfl
  | some n => rfl

/-- A component is resolved in a directory. -/
theorem canon_cons_ok (t : Node) (cur : Path) (c : String) (cs : Path) (r : Path)
    (h : canon t cur (c :: cs) = .ok r) : ∃ es, t.get cur = some (.dir es) := by
  rw [canon] at h
  cases hg : t.get cur with
  | none => simp [hg] at h
  | some n =>
    cases n with
    | file b => simp [hg] at h
    | dir es => exact ⟨es, rfl⟩

theorem canon_entry (t : Node) (cur : Path) (c : String) (es : List (String × Node))
    (hc : isEntryName c = true) (h : t.get cur = some (.dir es)) (cs : Path) :
    canon t cur (c :: cs) = canon t (cur ++ [c]) cs := by
  have hc' := (isEntryName_iff c).1 hc
  rw [canon, h]
  simp only [if_neg hc'.1, if_neg hc'.2]

theorem mem_of_wfEntries (es : List (String × Node)) (h : wfEntries es = true) (k : String)
    (n : Node) (hm : (k, n) ∈ es) :
    isEntryName k = true ∧ n.wf = true ∧ lookupEntry k es = some n := by
  induction es with
  | nil => simp at hm
  | cons e es ih =>
    obtain ⟨k', n'⟩ := e
    simp only [wfEntries, Bool.and_eq_true, Option.isNone_iff_eq_none] at h
    obtain ⟨⟨⟨h1, h2⟩, h3⟩, h4⟩ := h
    rcases List.mem_cons.1 hm with heq | hm'
    · obtain ⟨rfl, rfl⟩ := Prod.mk.inj heq
      exact ⟨h1, h3, by simp [lookupEntry]⟩
    · obtain ⟨i1, i2, i3⟩ := ih h4 hm'
      refine ⟨i1, i2, ?_⟩
      have hne : k' ≠ k := by
        rintro rfl
        rw [h2] at i3
        cases i3
      simp [lookupEntry, hne, i3]

theorem wf_of_get (p : Path) (t n : Node) (h : t.wf = true) (hg : t.get p = some n) :
    n.wf = true := by
  induction p generalizing t with
  | nil =>
    rw [get_nil] at hg
    cases hg
    exact h
  | cons c cs ih =>
    cases t with
    | file b => simp [Node.get] at hg
    | dir es =>
      simp only [Node.get] at hg
      cases hl : lookupEntry c es with
      | none => simp [hl] at hg
      | some m =>
        simp only [hl] at hg
        exact ih m (mem_of_wfEntries es (by simpa [Node.wf] using h) c m
          (mem_of_lookupEntry c m es hl)).2.1 hg

/-! ## The memory index under `Set` -/

theorem Set_ttl (d : Store) (fl : Faults) (now : Int) (key : String) (idx : Int)
    (value : Bytes) : (d.Set fl now key idx value).1.ttl = d.ttl := rfl

theorem Set_error (d : Store) (fl : Faults) (now : Int) (key : String) (idx : Int)
    (value : Bytes) : (d.Set fl now key idx value).2 = none := rfl

theorem Set_lookup_of_some (d : Store) (fl : Faults) (now : Int) (key : String) (idx : Int)
    (value : Bytes) (item : MemCacheItem)
    (h : d.memCache.lookup (sanitize key) = some item) :
    (d.Set fl now key idx value).1.memCache.lookup (sanitize key) =
      some { content := item.content.insert idx value, timestamp := item.timestamp } := by
  simp [Store.Set, h]

theorem Set_lookup_of_none (d : Store) (fl : Faults) (now : Int) (key : String) (idx : Int)
    (value : Bytes) (h : d.memCache.lookup (sanitize key) = none) :
    (d.Set fl now key idx value).1.memCache.lookup (sanitize key) =
      some { content := (∅ : AList (fun _ : Int => Bytes)).insert idx value,
             timestamp := now } := by
  simp [Store.Set, h]

theorem Set_lookup_of_ne (d : Store) (fl : Faults) (now : Int) (key : String) (idx : Int)
    (value : Bytes) (k : String) (h : k ≠ sanitize key) :
    (d.Set fl now key idx value).1.memCache.lookup k = d.memCache.lookup k := by
  simp [Store.Set, AList.lookup_insert_ne h]

theorem SetAll_ttl (calls : List SetCall) (d : Store) : (d.SetAll calls).ttl = d.ttl := by
  induction calls generalizing d with
  | nil => rfl
  | cons x xs ih => simp [Store.SetAll, ih, Set_ttl]

/-- A run of `Set` calls on one entry that exists keeps its creation time and
adds the chunks in the order of the calls. -/
theorem SetAll_lookup_of_some (s : String) (calls : List SetCall) (d : Store)
    (item : MemCacheItem) (hkey : ∀ x ∈ calls, sanitize x.key = s)
    (h : d.memCache.lookup s = some item) :
    (d.SetAll calls).memCache.lookup s =
      some { content := insertAll item.content calls, timestamp := item.timestamp } := by
  induction calls generalizing d item with
  | nil => simpa [Store.SetAll, insertAll] using h
  | cons x xs ih =>
    have hx : sanitize x.key = s := hkey x (List.mem_cons_self _ _)
    have hxs : ∀ y ∈ xs, sanitize y.key = s := fun y hy => hkey y (List.mem_cons_of_mem _ hy)
    have h1 := Set_lookup_of_some d x.fl x.now x.key x.idx x.value item (by rw [hx]; exact h)
    rw [hx] at h1
    have h2 := ih _ _ hxs h1
    simpa [Store.SetAll, insertAll] using h2

theorem mem_insertAll (j : Int) (calls : List SetCall) (m : AList (fun _ : Int => Bytes)) :
    j ∈ insertAll m calls ↔ j ∈ m ∨ ∃ x ∈ calls, x.idx = j := by
  induction calls generalizing m with
  | nil => simp [insertAll]
  | cons x xs ih =>
    have := ih (m.insert x.idx x.value)
    simp only [insertAll, List.foldl_cons] at this ⊢
    rw [this, AList.mem_insert]
    constructor
    · rintro ((h | h) | ⟨y, hy, h⟩)
      · exact Or.inr ⟨x, List.mem_cons_self _ _, h.symm⟩
      · exact Or.inl h
      · exact Or.inr ⟨y, List.mem_cons_of_mem _ hy, h⟩
    · rintro (h | ⟨y, hy, h⟩)
      · exact Or.inl (Or.inr h)
      · rcases List.mem_cons.1 hy with rfl | hy
        · exact Or.inl (Or.inl h.symm)
        · exact Or.inr ⟨y, hy, h⟩

theorem lookup_insertAll (j : Int) (v : Bytes) (calls : List SetCall)
    (m : AList (fun _ : Int => Bytes)) (hv : ∀ x ∈ calls, x.idx = j → x.value = v)
    (h : m.lookup j = some v ∨ ∃ x ∈ calls, x.idx = j) :
    (insertAll m calls).lookup j = some v := by
  induction calls generalizing m with
  | nil =>
    rcases h with h | ⟨x, hx, _⟩
    · simpa [insertAll] using h
    · simp at hx
  | cons x xs ih =>
    have hxs : ∀ y ∈ xs, y.idx = j → y.value = v :=
      fun y hy => hv y (List.mem_cons_of_mem _ hy)
    have step : (m.insert x.idx x.value).lookup j = some v ∨ ∃ y ∈ xs, y.idx = j := by
      by_cases hj : x.idx = j
      · left
        have := hv x (List.mem_cons_self _ _) hj
        subst hj
        rw [AList.lookup_insert, this]
      · rcases h with h | ⟨y, hy, hyj⟩
        · left
          rw [AList.lookup_insert_ne (Ne.symm hj)]
          exact h
        · rcases List.mem_cons.1 hy with rfl | hy
          · exact absurd hyj hj
          · exact Or.inr ⟨y, hy, hyj⟩
    have := ih (m.insert x.idx x.value) hxs step
    simpa [insertAll] using this

/-- The loop of the memory path over a chunk map that holds `c i` at every index
below the bound. -/
theorem foldl_chunks (content : AList (fun _ : Int => Bytes)) (c : Nat → Bytes) (n : Nat)
    (h : ∀ i, i < n → content.lookup (i : Int) = some (c i)) (acc : Bytes) :
    (List.range n).foldl
        (fun (acc : Bytes) (idx : Nat) =>
          match content.lookup (idx : Int) with
          | none => acc
          | some chunk => acc ++ chunk)
        acc
      = acc ++ ((List.range n).map c).flatten := by
  induction n with
  | zero => simp
  | succ n ih =>
    have hn := h n (Nat.lt_succ_self n)
    rw [List.range_succ, List.foldl_append, ih (fun i hi => h i (Nat.lt_succ_of_lt hi))]
    simp [hn]

/-- A chunk map whose indices are exactly `0 .. n-1` has `n` chunks. -/
theorem length_of_keys (content : AList (fun _ : Int => Bytes)) (n : Nat)
    (h : ∀ j : Int, j ∈ content ↔ ∃ i, i < n ∧ j = (i : Int)) :
    content.entries.length = n := by
  have hperm : content.keys.Perm ((List.range n).map (fun i : Nat => (i : Int))) := by
    rw [List.perm_ext_iff_of_nodup content.keys_nodup
      ((List.nodup_range n).map (fun a b hab => by exact_mod_cast hab))]
    intro j
    rw [← AList.mem_keys, h j]
    simp only [List.mem_map, List.mem_range]
    constructor
    · rintro ⟨i, hi, rfl⟩
      exact ⟨i, hi, rfl⟩
    · rintro ⟨i, hi, rfl⟩
      exact ⟨i, hi, rfl⟩
  have := hperm.length_eq
  simpa [AList.keys, List.keys] using this

theorem subInt64_eq (a b : Int) (h : -2 ^ 63 ≤ a - b ∧ a - b < 2 ^ 63) :
    subInt64 a b = a - b := by
  unfold subInt64
  omega

/-- The memory path of `Get` on an entry that is in the index. -/
theorem Get_of_some (d : Store) (fl : Faults) (now : Int) (key : String) (item : MemCacheItem)
    (h : d.memCache.lookup (sanitize key) = some item) :
    d.Get fl now key =
      if subInt64 now item.timestamp > d.ttl then .error .cacheExpired
      else .ok (joinChunks item.content) := by
  simp [Store.Get, h]

theorem SetAll_append (a b : List SetCall) (d : Store) :
    d.SetAll (a ++ b) = (d.SetAll a).SetAll b := by
  induction a generalizing d with
  | nil => rfl
  | cons x xs ih => simp [Store.SetAll, ih]

/-- Calls of `Set` on other keys leave an entry as it is. -/
theorem SetAll_lookup_of_ne (s : String) (calls : List SetCall) (d : Store)
    (hne : ∀ y ∈ calls, sanitize y.key ≠ s) :
    (d.SetAll calls).memCache.lookup s = d.memCache.lookup s := by
  induction calls generalizing d with
  | nil => rfl
  | cons x xs ih =>
    have hx : s ≠ sanitize x.key := fun h => hne x (List.mem_cons_self _ _) h.symm
    have := ih (d.Set x.fl x.now x.key x.idx x.value).1
      (fun y hy => hne y (List.mem_cons_of_mem _ hy))
    simp only [Store.SetAll]
    rw [this, Set_lookup_of_ne _ _ _ _ _ _ _ hx]

/-- No run of `Set` calls changes the creation time of an entry that exists. -/
theorem SetAll_timestamp (s : String) (calls : List SetCall) (d : Store) (item : MemCacheItem)
    (h : d.memCache.lookup s = some item) :
    ∃ item', (d.SetAll calls).memCache.lookup s = some item' ∧
      item'.timestamp = item.timestamp := by
  induction calls generalizing d item with
  | nil => exact ⟨item, h, rfl⟩
  | cons x xs ih =>
    by_cases hx : sanitize x.key = s
    · have h1 := Set_lookup_of_some d x.fl x.now x.key x.idx x.value item (by rw [hx]; exact h)
      rw [hx] at h1
      exact ih _ { content := item.content.insert x.idx x.value, timestamp := item.timestamp } h1
    · have h1 := Set_lookup_of_ne d x.fl x.now x.key x.idx x.value s (Ne.symm hx)
      rw [h] at h1
      exact ih _ _ h1

theorem ne_variant_append (variant s : String) (h : 0 < variant.length) :
    s ≠ variant ++ s := by
  intro heq
  have := congrArg String.length heq
  rw [String.length_append] at this
  omega

theorem Purge_lookup_of_ne (d : Store) (fl : Faults) (k k' : String)
    (h1 : k' ≠ "br::" ++ sanitize k) (h2 : k' ≠ "gzip::" ++ sanitize k) :
    (d.Purge fl k).memCache.lookup k' = d.memCache.lookup k' := by
  simp [Store.Purge, AList.lookup_erase_ne h1, AList.lookup_erase_ne h2]

theorem Purge_ttl (d : Store) (fl : Faults) (k : String) : (d.Purge fl k).ttl = d.ttl := rfl

/-! ## Well-formed trees stay well formed -/

theorem wfEntries_eraseEntry (c : String) (es : List (String × Node))
    (h : wfEntries es = true) : wfEntries (eraseEntry c es) = true := by
  induction es with
  | nil => rfl
  | cons e es ih =>
    obtain ⟨k, n⟩ := e
    simp only [wfEntries, Bool.and_eq_true, Option.isNone_iff_eq_none] at h
    obtain ⟨⟨⟨h1, h2⟩, h3⟩, h4⟩ := h
    by_cases hk : k = c
    · rw [eraseEntry, if_pos hk]
      exact ih h4
    · rw [eraseEntry, if_neg hk]
      simp only [wfEntries, Bool.and_eq_true, Option.isNone_iff_eq_none]
      exact ⟨⟨⟨h1, by rw [lookupEntry_eraseEntry_of_ne c k es hk]; exact h2⟩, h3⟩, ih h4⟩

theorem wfEntries_putEntry (c : String) (n : Node) (es : List (String × Node))
    (h : wfEntries es = true) (hc : isEntryName c = true) (hn : n.wf = true) :
    wfEntries (putEntry c n es) = true := by
  simp only [putEntry, wfEntries, Bool.and_eq_true, Option.isNone_iff_eq_none]
  exact ⟨⟨⟨hc, lookupEntry_eraseEntry_self c es⟩, hn⟩, wfEntries_eraseEntry c es h⟩

theorem ReadDir_of_dir (fl : Faults) (t : Node) (p cp : Path) (es : List (String × Node))
    (hf : fl .ReadDir p = false) (hc : canon t [] p = .ok cp) (hg : t.get cp = some (.dir es)) :
    os.ReadDir fl t p =
      .ok (List.insertionSort (fun a b => os.nameLE a b = true)
        (es.map (fun e => (e.1, e.2.isDir)))) := by
  simp [os.ReadDir, hf, hc, hg]

theorem readFiles_ne_expired (fl : Faults) (t : Node) (key : String)
    (files : List (String × Bool)) (acc : Bytes) :
    readFiles fl t key files acc ≠ .error .cacheExpired := by
  induction files generalizing acc with
  | nil => simp [readFiles]
  | cons file rest ih =>
    rw [readFiles]
    split
    · split
      · simp
      · exact ih _
    · exact ih _

theorem sanitize_idem (k : String) : sanitize (sanitize k) = sanitize k := by
  simp only [sanitize, List.map_map]
  congr 1
  apply List.map_congr_left
  intro c _
  by_cases h : c = '/'
  · simp [h]
  · simp [h]

theorem sanitize_no_slash (k : String) : '/' ∉ (sanitize k).data := by
  simp only [sanitize, List.mem_map, not_exists, not_and]
  intro c _
  by_cases h : c = '/'
  · simp [h]
  · simp [h]

theorem digitChar_ne_dot (n : Nat) : Nat.digitChar n ≠ '.' := by
  by_cases hn : n < 16
  · interval_cases n <;> decide
  · unfold Nat.digitChar
    iterate 16 rw [if_neg (by omega)]
    decide

theorem toDigitsCore_ne_dot (fuel : Nat) (n : Nat) (ds : List Char)
    (h : ∀ c ∈ ds, c ≠ '.') : ∀ c ∈ Nat.toDigitsCore 10 fuel n ds, c ≠ '.' := by
  induction fuel generalizing n ds with
  | zero => simpa [Nat.toDigitsCore] using h
  | succ fuel ih =>
    have hds : ∀ c ∈ Nat.digitChar (n % 10) :: ds, c ≠ '.' := by
      intro c hc
      rcases List.mem_cons.1 hc with rfl | hc
      · exact digitChar_ne_dot _
      · exact h c hc
    simp only [Nat.toDigitsCore]
    split
    · exact hds
    · exact ih _ _ hds

theorem toDigitsCore_ne_nil (fuel : Nat) (n : Nat) (ds : List Char) (h : ds ≠ []) :
    Nat.toDigitsCore 10 fuel n ds ≠ [] := by
  induction fuel generalizing n ds with
  | zero => simpa [Nat.toDigitsCore] using h
  | succ fuel ih =>
    simp only [Nat.toDigitsCore]
    split
    · simp
    · exact ih _ _ (by simp)

theorem toDigits_ne_nil (n : Nat) : Nat.toDigits 10 n ≠ [] := by
  simp only [Nat.toDigits, Nat.toDigitsCore]
  split
  · simp
  · exact toDigitsCore_ne_nil _ _ _ (by simp)

theorem isEntryName_of_data (s : String) (h0 : s.data ≠ []) (h : ∀ c ∈ s.data, c ≠ '.') :
    isEntryName s = true := by
  rw [isEntryName_iff]
  refine ⟨?_, ?_⟩
  · rintro (rfl | rfl)
    · exact h0 rfl
    · exact h '.' (by decide) rfl
  · rintro rfl
    exact h '.' (by decide) rfl

/-- A decimal numeral is the name of an entry. -/
theorem Itoa_isEntryName (idx : Int) : isEntryName (Itoa idx) = true := by
  cases idx with
  | ofNat m =>
    apply isEntryName_of_data
    · exact toDigits_ne_nil m
    · exact toDigitsCore_ne_dot _ _ _ (by simp)
  | negSucc m =>
    apply isEntryName_of_data
    · show ("-" ++ Nat.repr (m + 1)).data ≠ []
      simp [String.data_append]
    · show ∀ c ∈ ("-" ++ Nat.repr (m + 1)).data, c ≠ '.'
      intro c hc
      rw [String.data_append] at hc
      rcases List.mem_append.1 hc with hc | hc
      · have : c = '-' := by simpa using hc
        rw [this]
        decide
      · exact toDigitsCore_ne_dot _ _ _ (by simp) c hc

theorem NewStore_empty_root (fl : Faults) (ttl now : Int) :
    (NewStore fl (.dir []) ttl now).memCache = ∅ := by
  unfold NewStore
  simp only
  by_cases hm : fl .MkdirAll [CACHE_DIR] = true
  · by_cases hr : fl .ReadDir [CACHE_DIR] = true
    · simp [os.MkdirAll, hm, os.ReadDir, hr]
    · simp [os.MkdirAll, hm, os.ReadDir, hr, canon, Node.get, CACHE_DIR_isEntryName.1,
        CACHE_DIR_isEntryName.2, lookupEntry]
  · by_cases hr : fl .ReadDir [CACHE_DIR] = true
    · simp [os.MkdirAll, hm, os.ReadDir, hr]
    · simp [os.MkdirAll, hm, os.ReadDir, hr, canon, Node.get, CACHE_DIR_isEntryName.1,
        CACHE_DIR_isEntryName.2, lookupEntry, os.mkdirAllFrom, Node.put, putEntry, eraseEntry,
        hydrateDirs]

theorem Flush_memCache (d : Store) (fl : Faults) : (d.Flush fl).1.memCache = ∅ := by
  unfold Store.Flush
  split <;> rfl

theorem mem_Set (d : Store) (fl : Faults) (now : Int) (key : String) (idx : Int)
    (value : Bytes) (k : String) :
    k ∈ (d.Set fl now key idx value).1.memCache ↔ k = sanitize key ∨ k ∈ d.memCache := by
  simp [Store.Set, AList.mem_insert]

theorem mem_SetAll (calls : List SetCall) (d : Store) (k : String) :
    k ∈ (d.SetAll calls).memCache ↔ k ∈ d.memCache ∨ ∃ x ∈ calls, sanitize x.key = k := by
  induction calls generalizing d with
  | nil => simp [Store.SetAll]
  | cons x xs ih =>
    simp only [Store.SetAll]
    rw [ih, mem_Set]
    constructor
    · rintro ((h | h) | ⟨y, hy, h⟩)
      · exact Or.inr ⟨x, List.mem_cons_self _ _, h.symm⟩
      · exact Or.inl h
      · exact Or.inr ⟨y, List.mem_cons_of_mem _ hy, h⟩
    · rintro (h | ⟨y, hy, h⟩)
      · exact Or.inl (Or.inr h)
      · rcases List.mem_cons.1 hy with rfl | hy
        · exact Or.inl (Or.inl h.symm)
        · exact Or.inr ⟨y, hy, h⟩

theorem readFiles_of_all_ok (fl : Faults) (t : Node) (key : String)
    (files : List (String × Bool))
    (h : ∀ x ∈ files, x.2 = false → ∃ b, os.ReadFile fl t [CACHE_DIR, key, x.1] = .ok b)
    (acc : Bytes) :
    readFiles fl t key files acc =
      .ok (acc ++ ((files.filter (fun x => !x.2)).map
        (fun x => fileBytes fl t [CACHE_DIR, key, x.1])).flatten) := by
  induction files generalizing acc with
  | nil => simp [readFiles]
  | cons file rest ih =>
    have hrest : ∀ x ∈ rest, x.2 = false → ∃ b, os.ReadFile fl t [CACHE_DIR, key, x.1] = .ok b :=
      fun x hx => h x (List.mem_cons_of_mem _ hx)
    rw [readFiles]
    cases hd : file.2 with
    | true => simpa [hd] using ih hrest acc
    | false =>
      obtain ⟨b, hb⟩ := h file (List.mem_cons_self _ _) hd
      simp only [Bool.not_false, if_true, hb]
      rw [ih hrest]
      simp [hd, fileBytes, hb]

theorem readFiles_of_fail (fl : Faults) (t : Node) (key : String)
    (files : List (String × Bool)) (x : String × Bool) (hx : x ∈ files) (hfile : x.2 = false)
    (e : Errno) (he : os.ReadFile fl t [CACHE_DIR, key, x.1] = .error e) (acc : Bytes) :
    readFiles fl t key files acc = .error .keyNotFound := by
  induction files generalizing acc with
  | nil => simp at hx
  | cons file rest ih =>
    rw [readFiles]
    rcases List.mem_cons.1 hx with heq | hx'
    · subst heq
      simp [hfile, he]
    · split
      · split
        · rfl
        · exact ih hx' _
      · exact ih hx' _

theorem all_ok_or_fail (fl : Faults) (t : Node) (key : String) (files : List (String × Bool)) :
    (∀ x ∈ files, x.2 = false → ∃ b, os.ReadFile fl t [CACHE_DIR, key, x.1] = .ok b) ∨
    ∃ x ∈ files, x.2 = false ∧ ∃ e, os.ReadFile fl t [CACHE_DIR, key, x.1] = .error e := by
  by_cases h : ∃ x ∈ files, x.2 = false ∧ ∃ e, os.ReadFile fl t [CACHE_DIR, key, x.1] = .error e
  · exact Or.inr h
  · left
    intro x hx hfile
    cases hr : os.ReadFile fl t [CACHE_DIR, key, x.1] with
    | ok b => exact ⟨b, rfl⟩
    | error e => exact absurd ⟨x, hx, hfile, e, hr⟩ h

theorem Get_of_none (d : Store) (fl : Faults) (now : Int) (key : String)
    (h : d.memCache.lookup (sanitize key) = none) :
    d.Get fl now key =
      match os.ReadDir fl d.disk [CACHE_DIR, sanitize key] with
      | .error _ => .error .keyNotFound
      | .ok files => readFiles fl d.disk (sanitize key) files [] := by
  unfold Store.Get
  simp only [h]

theorem applyOps_ttl (key : String) (ops : List KeyOp) (d : Store) :
    (d.applyOps key ops).ttl = d.ttl := by
  induction ops generalizing d with
  | nil => rfl
  | cons op ops ih =>
    cases op with
    | set fl now idx value => simp [Store.applyOps, ih, Set_ttl]
    | purge fl => simp [Store.applyOps, ih, Purge_ttl]

/-- No run of `Set` and `Purge` calls on a key removes its entry or changes the
creation time of the entry. -/
theorem applyOps_timestamp (key : String) (ops : List KeyOp) (d : Store) (item : MemCacheItem)
    (h : d.memCache.lookup (sanitize key) = some item) :
    ∃ item', (d.applyOps key ops).memCache.lookup (sanitize key) = some item' ∧
      item'.timestamp = item.timestamp := by
  induction ops generalizing d item with
  | nil => exact ⟨item, h, rfl⟩
  | cons op ops ih =>
    cases op with
    | set fl now idx value =>
      exact ih _ { content := item.content.insert idx value, timestamp := item.timestamp }
        (Set_lookup_of_some d fl now key idx value item h)
    | purge fl =>
      refine ih _ item ?_
      rw [Purge_lookup_of_ne d fl key _ (ne_variant_append _ _ (by decide))
        (ne_variant_append _ _ (by decide))]
      exact h

theorem Get_expired_lookup (d : Store) (fl : Faults) (now : Int) (key : String)
    (h : d.Get fl now key = .error .cacheExpired) :
    ∃ item, d.memCache.lookup (sanitize key) = some item ∧
      subInt64 now item.timestamp > d.ttl := by
  cases hl : d.memCache.lookup (sanitize key) with
  | none =>
    unfold Store.Get at h
    simp only [hl] at h
    split at h
    · cases h
    · exact absurd h (readFiles_ne_expired _ _ _ _ _)
  | some item =>
    rw [Get_of_some d fl now key item hl] at h
    refine ⟨item, rfl, ?_⟩
    by_contra hc
    rw [if_neg hc] at h
    cases h

theorem listDisk_eq (files : List (String × Bool)) (acc : List String) :
    listDisk files acc = acc ++ (files.filter (fun file => !file.2)).map (fun file => file.1) := by
  induction files generalizing acc with
  | nil => simp [listDisk]
  | cons file rest ih =>
    rw [listDisk]
    cases hd : file.2 with
    | true => simpa [hd] using ih acc
    | false => simp [hd, ih]

theorem NewStore_empty_disk (ttl now : Int) :
    (NewStore noFaults (.dir []) ttl now).disk = .dir [(CACHE_DIR, .dir [])] := rfl

theorem Itoa_zero : Itoa 0 = "0" := by decide

theorem Set_on_empty_disk (ttl now : Int) (key : String) (value : Bytes) :
    sanitize key ∉ (((NewStore noFaults (.dir []) ttl now).Set noFaults now key 0 value).1.List
      noFaults).disk := by
  have hd := NewStore_empty_disk ttl now
  simp only [Store.Set, Store.List, hd, Itoa_zero]
  generalize sanitize key = s
  have hc : ¬ CACHE_DIR = "0" := by decide
  have hc' : ¬ "0" = CACHE_DIR := by decide
  by_cases h1 : s = "" ∨ s = "."
  · have h0 : ¬ s = "0" := by rcases h1 with rfl | rfl <;> decide
    simp [os.MkdirAll, noFaults, os.mkdirAllFrom, Node.get, lookupEntry,
      CACHE_DIR_isEntryName.1, CACHE_DIR_isEntryName.2, h1, os.WriteFile, canon, Node.put,
      putEntry, eraseEntry, os.ReadDir, Node.isDir, listDisk, os.nameLE, h0]
  · by_cases h2 : s = ".."
    · simp [os.MkdirAll, noFaults, os.mkdirAllFrom, Node.get, lookupEntry,
        CACHE_DIR_isEntryName.1, CACHE_DIR_isEntryName.2, h1, h2, os.WriteFile, canon, Node.put,
        putEntry, eraseEntry, os.ReadDir, Node.isDir, listDisk, os.nameLE, hc, hc']
    · simp [os.MkdirAll, noFaults, os.mkdirAllFrom, Node.get, lookupEntry,
        CACHE_DIR_isEntryName.1, CACHE_DIR_isEntryName.2, h1, h2, os.WriteFile, canon, Node.put,
        putEntry, eraseEntry, os.ReadDir, Node.isDir, listDisk, os.nameLE, hc]

theorem lookupEntry_putEntry (c c' : String) (n : Node) (es : List (String × Node)) :
    lookupEntry c' (putEntry c n es) = if c = c' then some n else lookupEntry c' es := by
  by_cases h : c = c'
  · simp [putEntry, lookupEntry, h]
  · simp only [putEntry, lookupEntry, if_neg h]
    exact lookupEntry_eraseEntry_of_ne c c' es (Ne.symm h)

theorem kindAt_nil_dir (es : List (String × Node)) : (Node.dir es).kindAt [] = some none := rfl

/-- Setting a node that has nothing below it, at a path that has nothing below
it, changes what the tree holds at that path only. -/
theorem kindAt_put (p : Path) (t new : Node) (q : Path)
    (hnew : ∀ r, r ≠ [] → new.get r = none)
    (hold : ∀ r, r ≠ [] → t.get (p ++ r) = none)
    (hp : p ≠ []) (hq : q ≠ p) : (t.put p new).kindAt q = t.kindAt q := by
  induction p generalizing t q with
  | nil => exact absurd rfl hp
  | cons c cs ih =>
    cases t with
    | file b => simp [Node.put]
    | dir es =>
      cases q with
      | nil =>
        cases cs with
        | nil => simp [Node.put, Node.kindAt, Node.get, Node.kind]
        | cons c2 cs' =>
          simp only [Node.put]
          cases lookupEntry c es <;> simp [Node.kindAt, Node.get, Node.kind]
      | cons c' qs =>
        cases cs with
        | nil =>
          simp only [Node.put, Node.kindAt, Node.get, lookupEntry_putEntry]
          by_cases hc : c = c'
          · subst hc
            have hqs : qs ≠ [] := fun h => hq (by rw [h])
            have h1 : (Node.dir es).get (c :: qs) = none := hold qs hqs
            simp only [Node.get] at h1
            rw [if_pos rfl]
            simp only [hnew qs hqs]
            rw [h1]
          · rw [if_neg hc]
        | cons c2 cs' =>
          simp only [Node.put]
          cases hl : lookupEntry c es with
          | none => rfl
          | some n =>
            simp only [Node.kindAt, Node.get, lookupEntry_putEntry]
            by_cases hc : c = c'
            · subst hc
              rw [if_pos rfl, hl]
              have hqs : qs ≠ c2 :: cs' := fun h => hq (by rw [h])
              have := ih n qs
                (fun r hr => by
                  have h2 : (Node.dir es).get (c :: (c2 :: cs' ++ r)) = none := hold r hr
                  simpa [Node.get, hl] using h2)
                (by simp) hqs
              simpa [Node.kindAt] using this
            · rw [if_neg hc]


theorem get_of_prefix_none (t : Node) (p r : Path) (h : t.get p = none) :
    t.get (p ++ r) = none := by
  rw [get_append, h]
  rfl

theorem get_below_file (b : Bytes) (r : Path) (hr : r ≠ []) : (Node.file b).get r = none := by
  cases r with
  | nil => exact absurd rfl hr
  | cons c cs => rfl

theorem get_below_empty (r : Path) (hr : r ≠ []) : (Node.dir []).get r = none := by
  cases r with
  | nil => exact absurd rfl hr
  | cons c cs => rfl

/-- What `os.MkdirAll` changes: it makes directories where nothing was, and only
on the path. -/
theorem mkdirAllFrom_kindAt (p : Path) (t : Node) (cur q : Path)
    (h : (os.mkdirAllFrom t cur p).1.kindAt q ≠ t.kindAt q) :
    q ∈ mkdirPaths cur p ∧ t.kindAt q = none := by
  induction p generalizing t cur with
  | nil =>
    rw [os.mkdirAllFrom] at h
    split at h <;> exact absurd rfl h
  | cons c cs ih =>
    rw [os.mkdirAllFrom] at h
    rw [mkdirPaths]
    split at h
    · exact absurd rfl h
    · exact absurd rfl h
    · split at h
      · rename_i h1
        rw [if_pos h1]
        exact ih t cur h
      · rename_i h1
        rw [if_neg h1]
        split at h
        · rename_i h2
          rw [if_pos h2]
          exact ih t _ h
        · rename_i h2
          rw [if_neg h2]
          split at h
          · obtain ⟨hm, hk⟩ := ih t _ h
            exact ⟨List.mem_cons_of_mem _ hm, hk⟩
          · rename_i hnone
            have hput : ∀ q', q' ≠ cur ++ [c] →
                (t.put (cur ++ [c]) (.dir [])).kindAt q' = t.kindAt q' := fun q' hq' =>
              kindAt_put _ t _ q' get_below_empty
                (fun r _ => get_of_prefix_none t _ r hnone) (by simp) hq'
            by_cases hq : q = cur ++ [c]
            · subst hq
              exact ⟨List.mem_cons_self _ _, by simp [Node.kindAt, hnone]⟩
            · rw [← hput q hq] at h ⊢
              obtain ⟨hm, hk⟩ := ih _ _ h
              exact ⟨List.mem_cons_of_mem _ hm, hk⟩

theorem MkdirAll_kindAt (fl : Faults) (t : Node) (p q : Path)
    (h : (os.MkdirAll fl t p).1.kindAt q ≠ t.kindAt q) :
    q ∈ mkdirPaths [] p ∧ t.kindAt q = none := by
  unfold os.MkdirAll at h
  split at h
  · exact absurd rfl h
  · exact mkdirAllFrom_kindAt p t [] q h

/-- What `os.WriteFile` changes: the file that the path resolves to. -/
theorem WriteFile_kindAt (fl : Faults) (t : Node) (p : Path) (data : Bytes) (q : Path)
    (h : (os.WriteFile fl t p data).1.kindAt q ≠ t.kindAt q) : canon t [] p = .ok q := by
  unfold os.WriteFile at h
  split at h
  · exact absurd rfl h
  · split at h
    · exact absurd rfl h
    · exact absurd rfl h
    · rename_i c cs hc
      split at h
      · exact absurd rfl h
      · rename_i hnd
        by_cases hq : q = c :: cs
        · rw [hq]
          exact hc
        · exfalso
          apply h
          apply kindAt_put _ t _ q (get_below_file data) _ (by simp) hq
          intro r hr
          rw [get_append]
          cases hg : t.get (c :: cs) with
          | none => rfl
          | some n =>
            cases n with
            | file b => exact get_below_file b r hr
            | dir es => exact absurd hg (hnd es)


theorem mkdirPaths_key (s : String) (q : Path) (h : q ∈ mkdirPaths [] [CACHE_DIR, s]) :
    q = [CACHE_DIR] ∨ q = [CACHE_DIR, s] := by
  simp only [mkdirPaths, if_neg CACHE_DIR_isEntryName.1, if_neg CACHE_DIR_isEntryName.2,
    List.nil_append] at h
  split at h
  · simp only [mkdirPaths, List.mem_singleton] at h
    exact Or.inl h
  · split at h
    · simp only [List.mem_cons] at h
      rcases h with h | h
      · exact Or.inl h
      · simp [mkdirPaths] at h
    · simp only [List.mem_cons, List.singleton_append] at h
      rcases h with h | h | h
      · exact Or.inl h
      · exact Or.inr h
      · simp [mkdirPaths] at h

/-- Where the path of a chunk file can resolve to, when the key names a
directory. -/
theorem canon_chunk (t : Node) (s x : String) (q : Path) (hs : isEntryName s = true)
    (h : canon t [] [CACHE_DIR, s, x] = .ok q) :
    q = [CACHE_DIR] ∨ q = [CACHE_DIR, s] ∨ q = [CACHE_DIR, s, x] := by
  obtain ⟨e0, he0⟩ := canon_cons_ok t [] _ _ _ h
  rw [canon_entry t [] CACHE_DIR e0 (by decide) he0] at h
  simp only [List.nil_append] at h
  obtain ⟨ec, hec⟩ := canon_cons_ok t _ _ _ _ h
  rw [canon_entry t _ s ec hs hec] at h
  simp only [List.singleton_append] at h
  obtain ⟨es, hes⟩ := canon_cons_ok t _ _ _ _ h
  rw [canon, hes] at h
  simp only at h
  split at h
  · rw [canon] at h
    exact Or.inr (Or.inl (Except.ok.inj h).symm)
  · split at h
    · rw [canon] at h
      exact Or.inl (Except.ok.inj h).symm
    · rw [canon] at h
      exact Or.inr (Or.inr (Except.ok.inj h).symm)

theorem Set_disk_kindAt (d : Store) (fl : Faults) (now : Int) (key : String) (idx : Int)
    (value : Bytes) (q : Path)
    (h : (d.Set fl now key idx value).1.disk.kindAt q ≠ d.disk.kindAt q) :
    ((q = [CACHE_DIR] ∨ q = [CACHE_DIR, sanitize key]) ∧ d.disk.kindAt q = none) ∨
    canon (os.MkdirAll fl d.disk [CACHE_DIR, sanitize key]).1 []
      [CACHE_DIR, sanitize key, Itoa idx] = .ok q := by
  by_cases h1 : (os.MkdirAll fl d.disk [CACHE_DIR, sanitize key]).1.kindAt q = d.disk.kindAt q
  · right
    apply WriteFile_kindAt fl _ _ value q
    rw [h1]
    exact h
  · left
    obtain ⟨hm, hk⟩ := MkdirAll_kindAt fl d.disk _ q h1
    exact ⟨mkdirPaths_key _ q hm, hk⟩

/-! ## The chunk files of a key on disk -/

/-- Inserting an element of a strictly ordered list into the list without it
gives the list back. -/
theorem orderedInsert_erase {α : Type} [DecidableEq α] (r : α → α → Prop) [DecidableRel r]
    (T : List α) (hT : T.Pairwise (fun x y => r x y ∧ ¬ r y x)) (a : α) (ha : a ∈ T) :
    List.orderedInsert r a (T.erase a) = T := by
  induction T with
  | nil => simp at ha
  | cons t ts ih =>
    rw [List.pairwise_cons] at hT
    by_cases hat : t = a
    · subst hat
      rw [List.erase_cons_head]
      cases ts with
      | nil => rfl
      | cons u us =>
        rw [List.orderedInsert, if_pos (hT.1 u (List.mem_cons_self _ _)).1]
    · have ha' : a ∈ ts := by
        rcases List.mem_cons.1 ha with h | h
        · exact absurd h.symm hat
        · exact h
      have hne : ¬ (t == a) = true := by simpa using hat
      rw [List.erase_cons_tail hne, List.orderedInsert, if_neg (hT.1 a ha').2, ih hT.2 ha']

/-- Sorting a rearrangement of a strictly ordered list gives the list. -/
theorem insertionSort_of_perm {α : Type} [DecidableEq α] (r : α → α → Prop) [DecidableRel r]
    (l T : List α) (hT : T.Pairwise (fun x y => r x y ∧ ¬ r y x)) (hp : l.Perm T) :
    List.insertionSort r l = T := by
  induction l generalizing T with
  | nil => exact (List.nil_perm.1 hp).symm
  | cons a l ih =>
    have ha : a ∈ T := hp.subset (List.mem_cons_self _ _)
    have hp' : l.Perm (T.erase a) := (List.cons_perm_iff_perm_erase.1 hp).2
    rw [List.insertionSort, ih (T.erase a) (hT.sublist (List.erase_sublist a T)) hp']
    exact orderedInsert_erase r T hT a ha

theorem chunkListing_sorted (n : Nat) (hn : n ≤ 10) :
    (chunkListing n).Pairwise
      (fun x y => os.nameLE x y = true ∧ ¬ os.nameLE y x = true) := by
  interval_cases n <;> decide

theorem Itoa_inj_small (i j : Nat) (hi : i < 10) (hj : j < 10)
    (h : Itoa (i : Int) = Itoa (j : Int)) : i = j := by
  interval_cases i <;> interval_cases j <;> first | rfl | (exact absurd h (by decide))

/-- The directory in which an entry is set holds the new entries afterwards. -/
theorem get_put_parent (dp : Path) (c : String) (new : Node) (t : Node)
    (es : List (String × Node)) (h : t.get dp = some (.dir es)) :
    (t.put (dp ++ [c]) new).get dp = some (.dir (putEntry c new es)) := by
  induction dp generalizing t es with
  | nil =>
    rw [get_nil] at h
    cases h
    rfl
  | cons a dp' ih =>
    cases t with
    | file b => simp [Node.get] at h
    | dir e0 =>
      simp only [Node.get] at h
      cases hl : lookupEntry a e0 with
      | none => simp [hl] at h
      | some n =>
        simp only [hl] at h
        have hput : (Node.dir e0).put (a :: dp' ++ [c]) new
            = .dir (putEntry a (n.put (dp' ++ [c]) new) e0) := by
          cases dp' <;> simp [Node.put, hl]
        rw [hput]
        simp only [Node.get, lookupEntry_putEntry, if_true]
        exact ih n es h

theorem mem_eraseEntry (c : String) (es : List (String × Node)) (e : String × Node)
    (h : e ∈ eraseEntry c es) : e ∈ es := by
  induction es with
  | nil => simp [eraseEntry] at h
  | cons x xs ih =>
    obtain ⟨k, n⟩ := x
    rw [eraseEntry] at h
    split at h
    · exact List.mem_cons_of_mem _ (ih h)
    · rcases List.mem_cons.1 h with h | h
      · rw [h]
        exact List.mem_cons_self _ _
      · exact List.mem_cons_of_mem _ (ih h)

/-- `os.MkdirAll` on the directory of a key that is there changes nothing. -/
theorem MkdirAll_key_of_dir (fl : Faults) (t : Node) (s : String) (es : List (String × Node))
    (hs : isEntryName s = true) (h : t.get [CACHE_DIR, s] = some (.dir es)) :
    (os.MkdirAll fl t [CACHE_DIR, s]).1 = t := by
  have hs' := (isEntryName_iff s).1 hs
  unfold os.MkdirAll
  split
  · rfl
  · cases t with
    | file b => simp [Node.get] at h
    | dir e0 =>
      simp only [Node.get] at h
      cases hl : lookupEntry CACHE_DIR e0 with
      | none => simp [hl] at h
      | some n =>
        simp only [hl] at h
        cases n with
        | file b => simp [Node.get] at h
        | dir ec =>
          simp only [Node.get] at h
          cases hl2 : lookupEntry s ec with
          | none => simp [hl2] at h
          | some m =>
            simp only [hl2] at h
            cases h
            simp [os.mkdirAllFrom, Node.get, CACHE_DIR_isEntryName.1, CACHE_DIR_isEntryName.2,
              hl, hs'.1, hs'.2, hl2]

/-- `os.MkdirAll` makes the directory of a key that is missing, and the cache
directory with it when that is missing too. -/
theorem MkdirAll_key_of_none (fl : Faults) (e0 : List (String × Node)) (s : String)
    (hs : isEntryName s = true) (hf : fl .MkdirAll [CACHE_DIR, s] = false)
    (hroot : ∀ b, (Node.dir e0).get [CACHE_DIR] ≠ some (.file b))
    (h : (Node.dir e0).get [CACHE_DIR, s] = none) :
    (os.MkdirAll fl (.dir e0) [CACHE_DIR, s]).1.get [CACHE_DIR, s] = some (.dir []) := by
  have hs' := (isEntryName_iff s).1 hs
  unfold os.MkdirAll
  rw [if_neg (by simp [hf])]
  simp only [Node.get] at h hroot
  cases hl : lookupEntry CACHE_DIR e0 with
  | none =>
    simp [os.mkdirAllFrom, Node.get, CACHE_DIR_isEntryName.1, CACHE_DIR_isEntryName.2, hl,
      hs'.1, hs'.2, Node.put, lookupEntry_putEntry, lookupEntry]
  | some n =>
    cases n with
    | file b => simp [hl] at hroot
    | dir ec =>
      simp only [hl, Node.get] at h
      cases hl2 : lookupEntry s ec with
      | some m => simp [hl2] at h
      | none =>
        simp [os.mkdirAllFrom, Node.get, CACHE_DIR_isEntryName.1, CACHE_DIR_isEntryName.2, hl,
          hs'.1, hs'.2, Node.put, lookupEntry_putEntry, lookupEntry, hl2]


theorem canon_chunk_path (t : Node) (s x : String) (es : List (String × Node))
    (hs : isEntryName s = true) (hx : isEntryName x = true)
    (h : t.get [CACHE_DIR, s] = some (.dir es)) :
    canon t [] [CACHE_DIR, s, x] = .ok [CACHE_DIR, s, x] := by
  cases t with
  | file b => simp [Node.get] at h
  | dir e0 =>
    have h0 := h
    simp only [Node.get] at h0
    cases hl : lookupEntry CACHE_DIR e0 with
    | none => simp [hl] at h0
    | some n =>
      cases n with
      | file b => simp [hl, Node.get] at h0
      | dir ec =>
        have hec : (Node.dir e0).get [CACHE_DIR] = some (.dir ec) := by simp [Node.get, hl]
        rw [canon_entry _ [] CACHE_DIR e0 (by decide) (get_nil _)]
        simp only [List.nil_append]
        rw [canon_entry _ _ s ec hs hec]
        simp only [List.singleton_append]
        rw [canon_entry _ _ x es hx h]
        rfl

theorem canon_key_path (t : Node) (s : String) (es : List (String × Node))
    (hs : isEntryName s = true) (h : t.get [CACHE_DIR, s] = some (.dir es)) :
    canon t [] [CACHE_DIR, s] = .ok [CACHE_DIR, s] := by
  cases t with
  | file b => simp [Node.get] at h
  | dir e0 =>
    have h0 := h
    simp only [Node.get] at h0
    cases hl : lookupEntry CACHE_DIR e0 with
    | none => simp [hl] at h0
    | some n =>
      cases n with
      | file b => simp [hl, Node.get] at h0
      | dir ec =>
        have hec : (Node.dir e0).get [CACHE_DIR] = some (.dir ec) := by simp [Node.get, hl]
        rw [canon_entry _ [] CACHE_DIR e0 (by decide) (get_nil _)]
        simp only [List.nil_append]
        rw [canon_entry _ _ s ec hs hec]
        rfl

/-- The write of a chunk file into the directory of a key that holds files
only. -/
theorem WriteFile_chunk (fl : Faults) (t : Node) (s : String) (idx : Int) (value : Bytes)
    (es : List (String × Node)) (hs : isEntryName s = true)
    (hf : fl .WriteFile [CACHE_DIR, s, Itoa idx] = false)
    (h : t.get [CACHE_DIR, s] = some (.dir es)) (hfiles : ∀ e ∈ es, e.2.isDir = false) :
    (os.WriteFile fl t [CACHE_DIR, s, Itoa idx] value).1.get [CACHE_DIR, s]
      = some (.dir (putEntry (Itoa idx) (.file value) es)) := by
  unfold os.WriteFile
  rw [if_neg (by simp [hf]), canon_chunk_path t s (Itoa idx) es hs (Itoa_isEntryName idx) h]
  simp only
  have hget : t.get ([CACHE_DIR, s] ++ [Itoa idx]) = lookupEntry (Itoa idx) es :=
    get_snoc _ _ t es h
  simp only [List.cons_append, List.nil_append] at hget
  have hput := get_put_parent [CACHE_DIR, s] (Itoa idx) (.file value) t es h
  simp only [List.cons_append, List.nil_append] at hput
  cases hl : lookupEntry (Itoa idx) es with
  | none =>
    rw [hl] at hget
    simp only [hget]
    exact hput
  | some n =>
    rw [hl] at hget
    cases n with
    | file b =>
      simp only [hget]
      exact hput
    | dir e =>
      have := hfiles _ (mem_of_lookupEntry _ _ _ hl)
      simp [Node.isDir] at this

theorem putEntry_files (c : String) (b : Bytes) (es : List (String × Node))
    (h : ∀ e ∈ es, e.2.isDir = false) : ∀ e ∈ putEntry c (.file b) es, e.2.isDir = false := by
  intro e he
  rcases List.mem_cons.1 he with rfl | he
  · rfl
  · exact h e (mem_eraseEntry c es e he)

/-- A `Set` whose disk calls do not fail, on a key whose directory is there and
holds files only. -/
theorem Set_disk_of_dir (d : Store) (fl : Faults) (now : Int) (key : String) (idx : Int)
    (value : Bytes) (es : List (String × Node)) (hs : isEntryName (sanitize key) = true)
    (hf : fl .WriteFile [CACHE_DIR, sanitize key, Itoa idx] = false)
    (h : d.disk.get [CACHE_DIR, sanitize key] = some (.dir es))
    (hfiles : ∀ e ∈ es, e.2.isDir = false) :
    (d.Set fl now key idx value).1.disk.get [CACHE_DIR, sanitize key]
      = some (.dir (putEntry (Itoa idx) (.file value) es)) := by
  simp only [Store.Set, MkdirAll_key_of_dir fl d.disk _ es hs h]
  exact WriteFile_chunk fl d.disk _ idx value es hs hf h hfiles

/-- The first `Set` on a key that has no directory yet. -/
theorem Set_disk_of_none (d : Store) (fl : Faults) (now : Int) (key : String) (idx : Int)
    (value : Bytes) (e0 : List (String × Node)) (hs : isEntryName (sanitize key) = true)
    (hfm : fl .MkdirAll [CACHE_DIR, sanitize key] = false)
    (hf : fl .WriteFile [CACHE_DIR, sanitize key, Itoa idx] = false)
    (hloc : d.disk = .dir e0)
    (hroot : ∀ b, d.disk.get [CACHE_DIR] ≠ some (.file b))
    (h : d.disk.get [CACHE_DIR, sanitize key] = none) :
    (d.Set fl now key idx value).1.disk.get [CACHE_DIR, sanitize key]
      = some (.dir (putEntry (Itoa idx) (.file value) [])) := by
  simp only [Store.Set]
  rw [hloc] at hroot h ⊢
  exact WriteFile_chunk fl _ _ idx value [] hs hf
    (MkdirAll_key_of_none fl e0 _ hs hfm hroot h) (fun e he => by simp at he)

/-- A run of `Set` calls on one key whose disk calls do not fail writes the
chunk files of the calls into the directory of the key. -/
theorem SetAll_disk (s : String) (calls : List SetCall) (d : Store)
    (es : List (String × Node)) (hs : isEntryName s = true)
    (hkey : ∀ x ∈ calls, sanitize x.key = s)
    (hfl : ∀ x ∈ calls, x.fl .WriteFile [CACHE_DIR, s, Itoa x.idx] = false)
    (h : d.disk.get [CACHE_DIR, s] = some (.dir es))
    (hfiles : ∀ e ∈ es, e.2.isDir = false) :
    (d.SetAll calls).disk.get [CACHE_DIR, s] = some (.dir (putAll es calls)) ∧
    ∀ e ∈ putAll es calls, e.2.isDir = false := by
  induction calls generalizing d es with
  | nil => exact ⟨h, hfiles⟩
  | cons x xs ih =>
    have hx : sanitize x.key = s := hkey x (List.mem_cons_self _ _)
    have h1 := Set_disk_of_dir d x.fl x.now x.key x.idx x.value es (by rw [hx]; exact hs)
      (by rw [hx]; exact hfl x (List.mem_cons_self _ _)) (by rw [hx]; exact h) hfiles
    rw [hx] at h1
    exact ih _ _ (fun y hy => hkey y (List.mem_cons_of_mem _ hy))
      (fun y hy => hfl y (List.mem_cons_of_mem _ hy)) h1 (putEntry_files _ _ es hfiles)


theorem wfEntries_putAll (calls : List SetCall) (es : List (String × Node))
    (h : wfEntries es = true) : wfEntries (putAll es calls) = true := by
  induction calls generalizing es with
  | nil => exact h
  | cons x xs ih =>
    exact ih _ (wfEntries_putEntry _ _ es h (Itoa_isEntryName x.idx) rfl)

theorem mem_putAll (calls : List SetCall) (es : List (String × Node)) (e : String × Node)
    (h : e ∈ putAll es calls) : e ∈ es ∨ ∃ x ∈ calls, e = (Itoa x.idx, .file x.value) := by
  induction calls generalizing es with
  | nil => exact Or.inl h
  | cons x xs ih =>
    rcases ih (putEntry (Itoa x.idx) (.file x.value) es) h with h1 | ⟨y, hy, h1⟩
    · rcases List.mem_cons.1 h1 with h2 | h2
      · exact Or.inr ⟨x, List.mem_cons_self _ _, h2⟩
      · exact Or.inl (mem_eraseEntry _ es e h2)
    · exact Or.inr ⟨y, List.mem_cons_of_mem _ hy, h1⟩

theorem lookupEntry_putAll (name : String) (v : Bytes) (calls : List SetCall)
    (es : List (String × Node)) (hv : ∀ x ∈ calls, Itoa x.idx = name → x.value = v)
    (h : lookupEntry name es = some (.file v) ∨ ∃ x ∈ calls, Itoa x.idx = name) :
    lookupEntry name (putAll es calls) = some (.file v) := by
  induction calls generalizing es with
  | nil =>
    rcases h with h | ⟨x, hx, _⟩
    · exact h
    · simp at hx
  | cons x xs ih =>
    apply ih _ (fun y hy => hv y (List.mem_cons_of_mem _ hy))
    by_cases hx : Itoa x.idx = name
    · left
      rw [lookupEntry_putEntry, if_pos hx, hv x (List.mem_cons_self _ _) hx]
    · rcases h with h | ⟨y, hy, hyn⟩
      · left
        rw [lookupEntry_putEntry, if_neg hx]
        exact h
      · rcases List.mem_cons.1 hy with rfl | hy
        · exact absurd hyn hx
        · exact Or.inr ⟨y, hy, hyn⟩

theorem not_mem_names_of_lookupEntry (k : String) (es : List (String × Node))
    (h : lookupEntry k es = none) : k ∉ es.map (fun e => e.1) := by
  induction es with
  | nil => simp
  | cons e es ih =>
    obtain ⟨k', n⟩ := e
    rw [lookupEntry] at h
    split at h
    · cases h
    · rename_i hne
      simp only [List.map_cons, List.mem_cons, not_or]
      exact ⟨fun h' => hne h'.symm, ih h⟩

theorem names_nodup_of_wfEntries (es : List (String × Node)) (h : wfEntries es = true) :
    (es.map (fun e => e.1)).Nodup := by
  induction es with
  | nil => simp
  | cons e es ih =>
    obtain ⟨k, n⟩ := e
    simp only [wfEntries, Bool.and_eq_true, Option.isNone_iff_eq_none] at h
    obtain ⟨⟨⟨_, h2⟩, _⟩, h4⟩ := h
    simp only [List.map_cons, List.nodup_cons]
    exact ⟨not_mem_names_of_lookupEntry k es h2, ih h4⟩

/-- A chunk file of the directory of a key is read through the path of the
key. -/
theorem ReadFile_chunk (t : Node) (s : String) (idx : Int) (b : Bytes)
    (es : List (String × Node)) (hs : isEntryName s = true)
    (h : t.get [CACHE_DIR, s] = some (.dir es))
    (hl : lookupEntry (Itoa idx) es = some (.file b)) :
    os.ReadFile noFaults t [CACHE_DIR, s, Itoa idx] = .ok b := by
  have hget : t.get ([CACHE_DIR, s] ++ [Itoa idx]) = lookupEntry (Itoa idx) es :=
    get_snoc _ _ t es h
  simp only [List.cons_append, List.nil_append] at hget
  simp [os.ReadFile, noFaults, canon_chunk_path t s (Itoa idx) es hs (Itoa_isEntryName idx) h,
    hget, hl]

/-- The memory path of `Get` after a run of `Set` calls that wrote the chunks
`c 0` to `c (n-1)` of a key that was not in the index. -/
theorem Get_memory_of_SetAll (d : Store) (k : String) (n : Nat) (c : Nat → Bytes)
    (first : SetCall) (rest : List SetCall) (fl : Faults) (now : Int)
    (habsent : d.memCache.lookup (sanitize k) = none)
    (hkey : ∀ x ∈ first :: rest, x.key = k)
    (hidx : ∀ x ∈ first :: rest, ∃ i, i < n ∧ x.idx = (i : Int) ∧ x.value = c i)
    (hall : ∀ i, i < n → ∃ x ∈ first :: rest, x.idx = (i : Int))
    (hrange : -2 ^ 63 ≤ now - first.now ∧ now - first.now < 2 ^ 63)
    (hage : now - first.now ≤ d.ttl) :
    (d.SetAll (first :: rest)).Get fl now k = .ok ((List.range n).map c).flatten := by
  have hk1 : first.key = k := hkey first (List.mem_cons_self _ _)
  have hrest : ∀ x ∈ rest, sanitize x.key = sanitize k := fun x hx => by
    rw [hkey x (List.mem_cons_of_mem _ hx)]
  have hs1 : sanitize first.key = sanitize k := by rw [hk1]
  have h1 := Set_lookup_of_none d first.fl first.now first.key first.idx first.value
    (by rw [hs1]; exact habsent)
  rw [hs1] at h1
  have h2 : (d.SetAll (first :: rest)).memCache.lookup (sanitize k) = _ :=
    SetAll_lookup_of_some (sanitize k) rest _ _ hrest h1
  have hF : insertAll ((∅ : AList (fun _ : Int => Bytes)).insert first.idx first.value) rest
      = insertAll ∅ (first :: rest) := rfl
  simp only [hF] at h2
  have hlook : ∀ i, i < n → (insertAll ∅ (first :: rest)).lookup (i : Int) = some (c i) := by
    intro i hi
    apply lookup_insertAll
    · intro x hx hxi
      obtain ⟨i', _, hi', hv⟩ := hidx x hx
      have : i' = i := by
        have := hi'.symm.trans hxi
        exact_mod_cast this
      rw [hv, this]
    · exact Or.inr (hall i hi)
  have hlen : (insertAll ∅ (first :: rest)).entries.length = n := by
    apply length_of_keys
    intro j
    rw [mem_insertAll]
    constructor
    · rintro (h | ⟨x, hx, rfl⟩)
      · exact absurd h (AList.not_mem_empty j)
      · obtain ⟨i, hi, hi', _⟩ := hidx x hx
        exact ⟨i, hi, hi'⟩
    · rintro ⟨i, hi, rfl⟩
      exact Or.inr (hall i hi)
  have hget := Get_of_some (d.SetAll (first :: rest)) fl now k _ h2
  rw [hget, SetAll_ttl]
  simp only [subInt64_eq _ _ hrange]
  rw [if_neg (not_lt.2 hage)]
  simp only [joinChunks, hlen]
  rw [foldl_chunks _ c n hlook]
  simp

/-- The disk path of `Get` after a run of `Set` calls that wrote the chunk files
`0` to `n-1`, at most ten, of a key that names a directory and had none. -/
theorem Get_disk_of_SetAll (d : Store) (k : String) (n : Nat) (c : Nat → Bytes)
    (first : SetCall) (rest : List SetCall) (now : Int) (e0 : List (String × Node))
    (hn : n ≤ 10) (hname : isEntryName (sanitize k) = true)
    (hloc : d.disk = .dir e0)
    (hroot : ∀ b, d.disk.get [CACHE_DIR] ≠ some (.file b))
    (hfresh : d.disk.get [CACHE_DIR, sanitize k] = none)
    (hkey : ∀ x ∈ first :: rest, x.key = k)
    (hfl : ∀ x ∈ first :: rest, x.fl .MkdirAll [CACHE_DIR, sanitize k] = false ∧
      x.fl .WriteFile [CACHE_DIR, sanitize k, Itoa x.idx] = false)
    (hidx : ∀ x ∈ first :: rest, ∃ i, i < n ∧ x.idx = (i : Int) ∧ x.value = c i)
    (hall : ∀ i, i < n → ∃ x ∈ first :: rest, x.idx = (i : Int)) :
    ({ d.SetAll (first :: rest) with memCache := ∅ } : Store).Get noFaults now k
      = .ok ((List.range n).map c).flatten := by
  have hk1 : first.key = k := hkey first (List.mem_cons_self _ _)
  have hfl1 := hfl first (List.mem_cons_self _ _)
  -- the directory of the key after the calls
  have h1 := Set_disk_of_none d first.fl first.now first.key first.idx first.value e0
    (by rw [hk1]; exact hname) (by rw [hk1]; exact hfl1.1) (by rw [hk1]; exact hfl1.2) hloc
    hroot (by rw [hk1]; exact hfresh)
  rw [hk1] at h1
  obtain ⟨hE, hfiles⟩ := SetAll_disk (sanitize k) rest _ _ hname
    (fun x hx => by rw [hkey x (List.mem_cons_of_mem _ hx)])
    (fun x hx => (hfl x (List.mem_cons_of_mem _ hx)).2) h1
    (putEntry_files _ _ [] (fun e he => by simp at he))
  have hk1' : (d.Set first.fl first.now k first.idx first.value).1.SetAll rest
      = d.SetAll (first :: rest) := by rw [← hk1]; rfl
  rw [hk1'] at hE
  have hEq : putAll (putEntry (Itoa first.idx) (.file first.value) []) rest
      = putAll [] (first :: rest) := rfl
  rw [hEq] at hE hfiles
  generalize hEdef : putAll [] (first :: rest) = E at hE hfiles
  have hwf : wfEntries E = true := by
    rw [← hEdef]
    exact wfEntries_putAll _ [] rfl
  have hlook : ∀ i, i < n → lookupEntry (Itoa (i : Int)) E = some (.file (c i)) := by
    intro i hi
    rw [← hEdef]
    apply lookupEntry_putAll
    · intro x hx hxi
      obtain ⟨i', hi', hidx', hv⟩ := hidx x hx
      rw [hidx'] at hxi
      rw [hv, Itoa_inj_small i' i (by omega) (by omega) hxi]
    · obtain ⟨x, hx, hxi⟩ := hall i hi
      exact Or.inr ⟨x, hx, by rw [hxi]⟩
  -- the listing
  have hsorted := chunkListing_sorted n hn
  have hperm : (E.map (fun e => (e.1, e.2.isDir))).Perm (chunkListing n) := by
    rw [List.perm_ext_iff_of_nodup]
    · intro x
      constructor
      · intro hx
        obtain ⟨⟨name, node⟩, hmem, rfl⟩ := List.mem_map.1 hx
        rw [← hEdef] at hmem
        rcases mem_putAll _ _ _ hmem with h | ⟨y, hy, h⟩
        · simp at h
        · obtain ⟨i, hi, hidx', _⟩ := hidx y hy
          obtain ⟨rfl, rfl⟩ := Prod.mk.inj h
          exact List.mem_map.2 ⟨i, List.mem_range.2 hi, by rw [hidx']; rfl⟩
      · intro hx
        obtain ⟨i, hi, rfl⟩ := List.mem_map.1 hx
        exact List.mem_map.2 ⟨_, mem_of_lookupEntry _ _ _ (hlook i (List.mem_range.1 hi)), rfl⟩
    · apply List.Nodup.of_map Prod.fst
      rw [List.map_map]
      exact names_nodup_of_wfEntries E hwf
    · exact hsorted.imp (fun {a b} hab heq => by
        rw [heq] at hab
        exact hab.2 hab.1)
  have hlisting : List.insertionSort (fun a b => os.nameLE a b = true)
      (E.map (fun e => (e.1, e.2.isDir))) = chunkListing n :=
    insertionSort_of_perm _ _ _ hsorted hperm
  have hread : os.ReadDir noFaults (d.SetAll (first :: rest)).disk [CACHE_DIR, sanitize k]
      = .ok (chunkListing n) := by
    rw [ReadDir_of_dir noFaults _ _ _ E rfl (canon_key_path _ _ E hname hE) hE, hlisting]
  have hfile : ∀ i, i < n →
      os.ReadFile noFaults (d.SetAll (first :: rest)).disk [CACHE_DIR, sanitize k, Itoa (i : Int)]
        = .ok (c i) :=
    fun i hi => ReadFile_chunk _ _ _ _ E hname hE (hlook i hi)
  -- the loop
  rw [Get_of_none _ noFaults now k (by rfl)]
  simp only [hread]
  rw [readFiles_of_all_ok]
  · simp only [List.nil_append, chunkListing, List.filter_map, List.map_map]
    congr 2
    rw [List.filter_eq_self.2 (fun i _ => by simp)]
    apply List.map_congr_left
    intro i hi
    simp [fileBytes, hfile i (List.mem_range.1 hi)]
  · intro x hx _
    obtain ⟨i, hi, rfl⟩ := List.mem_map.1 hx
    exact ⟨c i, hfile i (List.mem_range.1 hi)⟩

/-! ## What `os.RemoveAll` leaves -/

theorem removeAllFrom_file (fl : Faults) (p : Path) (b : Bytes) :
    os.removeAllFrom fl p (.file b) = if fl .RemoveAll p then some (.file b) else none := by
  rw [os.removeAllFrom]

theorem removeAllFrom_dir (fl : Faults) (p : Path) (es : List (String × Node)) :
    os.removeAllFrom fl p (.dir es) =
      match os.removeAllEntries fl p es with
      | [] => if fl .RemoveAll p then some (.dir []) else none
      | e :: rest => some (.dir (e :: rest)) := by
  rw [os.removeAllFrom]

theorem removeAllEntries_cons (fl : Faults) (p : Path) (k : String) (n : Node)
    (es : List (String × Node)) :
    os.removeAllEntries fl p ((k, n) :: es) =
      match os.removeAllFrom fl (p ++ [k]) n with
      | none => os.removeAllEntries fl p es
      | some n1 => (k, n1) :: os.removeAllEntries fl p es := by
  rw [os.removeAllEntries]

/-- What is left of a directory is a directory with the entries that are left. -/
theorem removeAllFrom_dir_some (fl : Faults) (p : Path) (es : List (String × Node)) (n1 : Node)
    (h : os.removeAllFrom fl p (.dir es) = some n1) : n1 = .dir (os.removeAllEntries fl p es) := by
  rw [removeAllFrom_dir] at h
  cases hr : os.removeAllEntries fl p es with
  | nil =>
    rw [hr] at h
    simp only at h
    split at h
    · cases h; rfl
    · cases h
  | cons e rest =>
    rw [hr] at h
    cases h; rfl

/-- What is left of a node is of the kind of the node, with its content. -/
theorem removeAllFrom_kind (fl : Faults) (p : Path) (n n1 : Node)
    (h : os.removeAllFrom fl p n = some n1) : n1.kind = n.kind := by
  cases n with
  | file b =>
    rw [removeAllFrom_file] at h
    split at h
    · cases h; rfl
    · cases h
  | dir es => rw [removeAllFrom_dir_some fl p es n1 h]; rfl

/-- A node that cannot be unlinked is left. -/
theorem removeAllFrom_of_fault (fl : Faults) (p : Path) (n : Node)
    (h : fl .RemoveAll p = true) : ∃ n1, os.removeAllFrom fl p n = some n1 := by
  cases n with
  | file b => exact ⟨_, by rw [removeAllFrom_file, if_pos h]⟩
  | dir es =>
    rw [removeAllFrom_dir]
    cases os.removeAllEntries fl p es with
    | nil => exact ⟨.dir [], by simp only [if_pos h]⟩
    | cons e rest => exact ⟨_, rfl⟩

/-- A directory of which an entry is left is left. -/
theorem removeAllFrom_of_entries (fl : Faults) (p : Path) (es : List (String × Node))
    (h : os.removeAllEntries fl p es ≠ []) :
    os.removeAllFrom fl p (.dir es) = some (.dir (os.removeAllEntries fl p es)) := by
  rw [removeAllFrom_dir]
  cases hr : os.removeAllEntries fl p es with
  | nil => exact absurd hr h
  | cons e rest => rfl

/-- The entry of a name that is left, in a directory without a second entry of
the name. -/
theorem lookupEntry_removeAllEntries (fl : Faults) (p : Path) (k : String)
    (es : List (String × Node)) (h : wfEntries es = true) :
    lookupEntry k (os.removeAllEntries fl p es) =
      (lookupEntry k es).bind (os.removeAllFrom fl (p ++ [k])) := by
  induction es with
  | nil => rfl
  | cons e es ih =>
    obtain ⟨k0, n0⟩ := e
    simp only [wfEntries, Bool.and_eq_true, Option.isNone_iff_eq_none] at h
    obtain ⟨⟨⟨_, hno⟩, _⟩, hes⟩ := h
    rw [removeAllEntries_cons]
    by_cases hk : k0 = k
    · subst hk
      simp only [lookupEntry, if_true, Option.some_bind]
      cases hr : os.removeAllFrom fl (p ++ [k0]) n0 with
      | none => simp only []; rw [ih hes, hno]; rfl
      | some n1 => simp only [lookupEntry, if_true]
    · simp only [lookupEntry, if_neg hk]
      cases hr : os.removeAllFrom fl (p ++ [k0]) n0 with
      | none => simp only []; exact ih hes
      | some n1 => simp only [lookupEntry, if_neg hk]; exact ih hes

/-- No entry is left of a directory whose entries are all removed. -/
theorem removeAllEntries_nil (fl : Faults) (p : Path) (es : List (String × Node))
    (h : os.removeAllEntries fl p es = []) (k : String) (n : Node)
    (hl : lookupEntry k es = some n) : os.removeAllFrom fl (p ++ [k]) n = none := by
  induction es with
  | nil => simp [lookupEntry] at hl
  | cons e es ih =>
    obtain ⟨k0, n0⟩ := e
    rw [removeAllEntries_cons] at h
    cases hr : os.removeAllFrom fl (p ++ [k0]) n0 with
    | some n1 => rw [hr] at h; cases h
    | none =>
      rw [hr] at h
      by_cases hk : k0 = k
      · subst hk
        simp only [lookupEntry, if_true, Option.some.injEq] at hl
        subst hl
        exact hr
      · simp only [lookupEntry, if_neg hk] at hl
        exact ih h hl

theorem removeAllFrom_dir_none (fl : Faults) (p : Path) (es : List (String × Node))
    (h : os.removeAllFrom fl p (.dir es) = none) : os.removeAllEntries fl p es = [] := by
  rw [removeAllFrom_dir] at h
  cases hr : os.removeAllEntries fl p es with
  | nil => rfl
  | cons e rest => rw [hr] at h; cases h

/-- Below a node that is removed, every node is removed. -/
theorem removeAllFrom_none_get (fl : Faults) (q : Path) (p : Path) (n m : Node)
    (h : os.removeAllFrom fl p n = none) (hg : n.get q = some m) :
    os.removeAllFrom fl (p ++ q) m = none := by
  induction q generalizing p n with
  | nil =>
    rw [get_nil] at hg
    cases hg
    simpa using h
  | cons k q ih =>
    cases n with
    | file b => simp [Node.get] at hg
    | dir es =>
      simp only [Node.get] at hg
      cases hl : lookupEntry k es with
      | none => rw [hl] at hg; cases hg
      | some n1 =>
        rw [hl] at hg
        have h1 := removeAllEntries_nil fl p es (removeAllFrom_dir_none fl p es h) k n1 hl
        have := ih (p ++ [k]) n1 h1 hg
        simpa using this

/-- The node at a path of what is left of a tree: what is left of the node that
was at the path. -/
theorem get_removeAllFrom (fl : Faults) (q : Path) (p : Path) (n n1 : Node)
    (hwf : n.wf = true) (h : os.removeAllFrom fl p n = some n1) :
    n1.get q = (n.get q).bind (os.removeAllFrom fl (p ++ q)) := by
  induction q generalizing p n n1 with
  | nil => simp [get_nil, h]
  | cons k q ih =>
    cases n with
    | file b =>
      rw [removeAllFrom_file] at h
      split at h
      · cases h; simp [Node.get]
      · cases h
    | dir es =>
      have hes : wfEntries es = true := by simpa [Node.wf] using hwf
      rw [removeAllFrom_dir_some fl p es n1 h]
      simp only [Node.get]
      rw [lookupEntry_removeAllEntries fl p k es hes]
      cases hl : lookupEntry k es with
      | none => rfl
      | some m =>
        simp only [Option.some_bind]
        have hm := (mem_of_wfEntries es hes k m (mem_of_lookupEntry k m es hl)).2.1
        cases hr : os.removeAllFrom fl (p ++ [k]) m with
        | none =>
          simp only []
          cases hg : m.get q with
          | none => rfl
          | some x =>
            have := removeAllFrom_none_get fl q (p ++ [k]) m x hr hg
            simp only [Option.some_bind]
            rw [← this]; simp
        | some m1 =>
          simp only []
          rw [ih (p ++ [k]) m m1 hm hr]
          simp

mutual
/-- A node is left only when it, or a node below it, cannot be unlinked. -/
theorem removeAllFrom_some_fault (fl : Faults) : ∀ (n : Node) (p : Path) (n1 : Node),
    n.wf = true → os.removeAllFrom fl p n = some n1 →
    ∃ r m, n.get r = some m ∧ fl .RemoveAll (p ++ r) = true
  | .file b, p, n1, _, h => by
    rw [removeAllFrom_file] at h
    split at h
    · exact ⟨[], .file b, rfl, by simpa using ‹fl .RemoveAll p = true›⟩
    · cases h
  | .dir es, p, n1, hwf, h => by
    by_cases hf : fl .RemoveAll p = true
    · exact ⟨[], .dir es, rfl, by simpa using hf⟩
    · have hne : os.removeAllEntries fl p es ≠ [] := by
        intro hnil
        rw [removeAllFrom_dir, hnil] at h
        simp only [if_neg hf] at h
        cases h
      obtain ⟨k, n, r, m, hl, hg, hfault⟩ :=
        removeAllEntries_some_fault fl es p (by simpa [Node.wf] using hwf) hne
      exact ⟨k :: r, m, by simp [Node.get, hl, hg], by simpa using hfault⟩
/-- An entry is left only when it, or a node below it, cannot be unlinked. -/
theorem removeAllEntries_some_fault (fl : Faults) : ∀ (es : List (String × Node)) (p : Path),
    wfEntries es = true → os.removeAllEntries fl p es ≠ [] →
    ∃ k n r m, lookupEntry k es = some n ∧ n.get r = some m ∧
      fl .RemoveAll (p ++ k :: r) = true
  | [], p, _, h => absurd rfl h
  | (k0, n0) :: es, p, hwf, h => by
    simp only [wfEntries, Bool.and_eq_true, Option.isNone_iff_eq_none] at hwf
    obtain ⟨⟨⟨_, hno⟩, hn0⟩, hes⟩ := hwf
    cases hr : os.removeAllFrom fl (p ++ [k0]) n0 with
    | some n1 =>
      obtain ⟨r, m, hg, hfault⟩ := removeAllFrom_some_fault fl n0 (p ++ [k0]) n1 hn0 hr
      exact ⟨k0, n0, r, m, by simp [lookupEntry], hg, by simpa using hfault⟩
    | none =>
      rw [removeAllEntries_cons, hr] at h
      obtain ⟨k, n, r, m, hl, hg, hfault⟩ := removeAllEntries_some_fault fl es p hes h
      have hk : k0 ≠ k := by
        intro hk
        subst hk
        rw [hno] at hl
        cases hl
      exact ⟨k, n, r, m, by simp [lookupEntry, hk, hl], hg, hfault⟩
end

/-- What a failed removal of the cache directory leaves.  The tree stays as it
is when the location is a file, or has no cache directory that could be looked
up; otherwise the entry `sidekick-cache` is replaced by what is left of it. -/
theorem RemoveAll_cache_of_error (fl : Faults) (t : Node)
    (h : (os.RemoveAll fl t [CACHE_DIR]).2 ≠ none) :
    ((t.isDir = false ∨ (t.kindAt [CACHE_DIR] = none ∧ fl .RemoveAll [CACHE_DIR] = true)) ∧
      (os.RemoveAll fl t [CACHE_DIR]).1 = t) ∨
    ∃ es n n1, t = .dir es ∧ lookupEntry CACHE_DIR es = some n ∧
      os.removeAllFrom fl [CACHE_DIR] n = some n1 ∧
      (os.RemoveAll fl t [CACHE_DIR]).1 = .dir (putEntry CACHE_DIR n1 es) := by
  cases t with
  | file b => exact Or.inl ⟨Or.inl rfl, by rw [RemoveAll_cache_of_file]⟩
  | dir es =>
    rw [RemoveAll_cache_eq] at h ⊢
    cases hl : lookupEntry CACHE_DIR es with
    | none =>
      left
      simp only [hl] at h ⊢
      by_cases hf : fl .RemoveAll [CACHE_DIR] = true
      · rw [if_pos hf]
        exact ⟨Or.inr ⟨by simp [Node.kindAt, Node.get, hl], hf⟩, rfl⟩
      · rw [if_neg hf] at h; exact absurd rfl h
    | some n =>
      right
      simp only [hl] at h ⊢
      cases hr : os.removeAllFrom fl [CACHE_DIR] n with
      | none => rw [hr] at h; exact absurd rfl h
      | some n1 => exact ⟨es, n, n1, rfl, hl, hr, rfl⟩

/-- The removal of the cache directory fails when there is none and its look-up
fails. -/
theorem RemoveAll_cache_error_of_missing (fl : Faults) (es : List (String × Node))
    (hl : lookupEntry CACHE_DIR es = none) (hf : fl .RemoveAll [CACHE_DIR] = true) :
    (os.RemoveAll fl (.dir es) [CACHE_DIR]).2 ≠ none := by
  rw [RemoveAll_cache_eq]
  simp only [hl, if_pos hf]
  exact fun h => by cases h

/-- The removal of the cache directory fails when something of it is left. -/
theorem RemoveAll_cache_error_of_left (fl : Faults) (es : List (String × Node)) (n n1 : Node)
    (hl : lookupEntry CACHE_DIR es = some n) (hr : os.removeAllFrom fl [CACHE_DIR] n = some n1) :
    (os.RemoveAll fl (.dir es) [CACHE_DIR]).2 ≠ none := by
  rw [RemoveAll_cache_eq]
  simp only [hl, hr]
  exact fun h => by cases h

/-- The store after `Flush`, by the result of the removal. -/
theorem Flush_error_iff (d : Store) (fl : Faults) :
    ((d.Flush fl).2 ≠ none ↔ (os.RemoveAll fl d.disk [CACHE_DIR]).2 ≠ none) ∧
    ((d.Flush fl).2 ≠ none → (d.Flush fl).1.disk = (os.RemoveAll fl d.disk [CACHE_DIR]).1) := by
  have key : ∀ r : Node × Option Errno, os.RemoveAll fl d.disk [CACHE_DIR] = r →
      ((d.Flush fl).2 ≠ none ↔ r.2 ≠ none) ∧
      ((d.Flush fl).2 ≠ none → (d.Flush fl).1.disk = r.1) := by
    rintro ⟨disk1, err⟩ hr
    cases err with
    | none => simp [Store.Flush, hr]
    | some e => simp [Store.Flush, hr]
  exact key _ rfl

/-- A node that cannot be unlinked keeps the cache directory from being
removed. -/
theorem removeAllFrom_some_of_fault (fl : Faults) (p q : Path) (n m : Node)
    (hg : n.get q = some m) (hf : fl .RemoveAll (p ++ q) = true) :
    ∃ n1, os.removeAllFrom fl p n = some n1 := by
  cases hr : os.removeAllFrom fl p n with
  | some n1 => exact ⟨n1, rfl⟩
  | none =>
    obtain ⟨m1, hm1⟩ := removeAllFrom_of_fault fl (p ++ q) m hf
    rw [removeAllFrom_none_get fl q p n m hr hg] at hm1
    cases hm1

/-- The paths outside the cache directory hold what they held, whatever the
entry `sidekick-cache` is replaced by. -/
theorem kindAt_putEntry_other (es : List (String × Node)) (n1 : Node) (p : Path)
    (hp : p.head? ≠ some CACHE_DIR) :
    (Node.dir (putEntry CACHE_DIR n1 es)).kindAt p = (Node.dir es).kindAt p := by
  cases p with
  | nil => rfl
  | cons c q =>
    have hc : CACHE_DIR ≠ c := fun h => hp (by simp [h])
    simp only [Node.kindAt, Node.get, lookupEntry_putEntry, if_neg hc]

/-- What the tree holds below the cache directory after a failed removal, for a
well-formed tree. -/
theorem kindAt_left (fl : Faults) (es : List (String × Node)) (n n1 : Node) (q : Path)
    (hwf : wfEntries es = true) (hl : lookupEntry CACHE_DIR es = some n)
    (hr : os.removeAllFrom fl [CACHE_DIR] n = some n1) :
    ((∃ r, (Node.dir es).kindAt (CACHE_DIR :: (q ++ r)) ≠ none ∧
        fl .RemoveAll (CACHE_DIR :: (q ++ r)) = true) →
      (Node.dir (putEntry CACHE_DIR n1 es)).kindAt (CACHE_DIR :: q) =
        (Node.dir es).kindAt (CACHE_DIR :: q)) ∧
    ((¬ ∃ r, (Node.dir es).kindAt (CACHE_DIR :: (q ++ r)) ≠ none ∧
        fl .RemoveAll (CACHE_DIR :: (q ++ r)) = true) →
      (Node.dir (putEntry CACHE_DIR n1 es)).kindAt (CACHE_DIR :: q) = none) := by
  have hn : n.wf = true := (mem_of_wfEntries es hwf _ n (mem_of_lookupEntry _ n es hl)).2.1
  have hafter : (Node.dir (putEntry CACHE_DIR n1 es)).kindAt (CACHE_DIR :: q) =
      ((n.get q).bind (os.removeAllFrom fl (CACHE_DIR :: q))).map Node.kind := by
    simp only [Node.kindAt, Node.get, lookupEntry_putEntry, if_true]
    rw [get_removeAllFrom fl q [CACHE_DIR] n n1 hn hr]
    rfl
  have hbefore : ∀ r, (Node.dir es).kindAt (CACHE_DIR :: r) = (n.get r).map Node.kind := by
    intro r
    simp only [Node.kindAt, Node.get, hl]
  rw [hafter, hbefore]
  constructor
  · rintro ⟨r, hex, hf⟩
    rw [hbefore, get_append] at hex
    cases hg : n.get q with
    | none => rfl
    | some m =>
      rw [hg] at hex
      simp only [Option.some_bind] at hex ⊢
      cases hg2 : m.get r with
      | none => rw [hg2] at hex; exact absurd rfl hex
      | some m2 =>
        obtain ⟨m1, hm1⟩ := removeAllFrom_some_of_fault fl (CACHE_DIR :: q) r m m2 hg2
          (by simpa using hf)
        rw [hm1]
        simp only [Option.map_some', removeAllFrom_kind fl _ m m1 hm1]
  · intro hno
    cases hg : n.get q with
    | none => rfl
    | some m =>
      simp only [Option.some_bind]
      cases hm1 : os.removeAllFrom fl (CACHE_DIR :: q) m with
      | none => rfl
      | some m1 =>
        exfalso
        obtain ⟨r, m2, hg2, hf⟩ := removeAllFrom_some_fault fl m (CACHE_DIR :: q) m1
          (wf_of_get q n m hn hg) hm1
        refine hno ⟨r, ?_, by simpa using hf⟩
        rw [hbefore, get_append, hg]
        simp [hg2]

/-- The removal of the cache directory of a well-formed tree fails when the
location is not a directory, when the look-up or the unlinking of the cache
directory fails, or when a node below the cache directory cannot be unlinked,
and in no other case. -/
theorem RemoveAll_cache_error_iff (fl : Faults) (t : Node) (hwf : t.wf = true) :
    (os.RemoveAll fl t [CACHE_DIR]).2 ≠ none ↔
      (t.isDir = false ∨ fl .RemoveAll [CACHE_DIR] = true ∨
        ∃ q, t.kindAt (CACHE_DIR :: q) ≠ none ∧ fl .RemoveAll (CACHE_DIR :: q) = true) := by
  constructor
  · intro h
    rcases RemoveAll_cache_of_error fl t h with
      ⟨hfile | ⟨_, hf⟩, _⟩ | ⟨es, n, n1, rfl, hl, hr, _⟩
    · exact Or.inl hfile
    · exact Or.inr (Or.inl hf)
    · right; right
      have hes : wfEntries es = true := by simpa [Node.wf] using hwf
      have hn : n.wf = true := (mem_of_wfEntries es hes _ n (mem_of_lookupEntry _ n es hl)).2.1
      obtain ⟨r, m, hg, hf⟩ := removeAllFrom_some_fault fl n [CACHE_DIR] n1 hn hr
      exact ⟨r, by simp [Node.kindAt, Node.get, hl, hg], by simpa using hf⟩
  · rintro (hfile | hroot | ⟨q, hex, hf⟩)
    · cases t with
      | file b => rw [RemoveAll_cache_of_file]; exact fun h => by cases h
      | dir es => cases hfile
    · cases t with
      | file b => rw [RemoveAll_cache_of_file]; exact fun h => by cases h
      | dir es =>
        cases hl : lookupEntry CACHE_DIR es with
        | none => exact RemoveAll_cache_error_of_missing fl es hl hroot
        | some n =>
          obtain ⟨n1, hn1⟩ := removeAllFrom_of_fault fl [CACHE_DIR] n hroot
          exact RemoveAll_cache_error_of_left fl es n n1 hl hn1
    · cases t with
      | file b => simp [Node.kindAt, Node.get] at hex
      | dir es =>
        cases hl : lookupEntry CACHE_DIR es with
        | none => simp [Node.kindAt, Node.get, hl] at hex
        | some n =>
          cases hg : n.get q with
          | none => simp [Node.kindAt, Node.get, hl, hg] at hex
          | some m =>
            obtain ⟨n1, hn1⟩ := removeAllFrom_some_of_fault fl [CACHE_DIR] q n m hg
              (by simpa using hf)
            exact RemoveAll_cache_error_of_left fl es n n1 hl hn1

/-! ## The claims -/

/-- C1: for a key `k` that is not in the memory index, after `Set(k, i, c i)` has
been called for every `i` below `n`, in any order (`first` is the call made
first, and a chunk may be written more than once), a `Get(k)` made while the
age of the entry is at most the TTL succeeds and returns
`c 0 ++ c 1 ++ ... ++ c (n-1)`. -/
theorem C1_round_trip (d : Store) (k : String) (n : Nat) (c : Nat → Bytes)
    (first : SetCall) (rest : List SetCall) (fl : Faults) (now : Int)
    (habsent : d.memCache.lookup (sanitize k) = none)
    (hkey : ∀ x ∈ first :: rest, x.key = k)
    (hidx : ∀ x ∈ first :: rest, ∃ i, i < n ∧ x.idx = (i : Int) ∧ x.value = c i)
    (hall : ∀ i, i < n → ∃ x ∈ first :: rest, x.idx = (i : Int))
    (hrange : -2 ^ 63 ≤ now - first.now ∧ now - first.now < 2 ^ 63)
    (hage : now - first.now ≤ d.ttl) :
    (d.SetAll (first :: rest)).Get fl now k = .ok ((List.range n).map c).flatten := by
  have hk1 : first.key = k := hkey first (List.mem_cons_self _ _)
  have hrest : ∀ x ∈ rest, sanitize x.key = sanitize k := fun x hx => by
    rw [hkey x (List.mem_cons_of_mem _ hx)]
  have hs1 : sanitize first.key = sanitize k := by rw [hk1]
  have h1 := Set_lookup_of_none d first.fl first.now first.key first.idx first.value
    (by rw [hs1]; exact habsent)
  rw [hs1] at h1
  have h2 : (d.SetAll (first :: rest)).memCache.lookup (sanitize k) = _ :=
    SetAll_lookup_of_some (sanitize k) rest _ _ hrest h1
  have hF : insertAll ((∅ : AList (fun _ : Int => Bytes)).insert first.idx first.value) rest
      = insertAll ∅ (first :: rest) := rfl
  simp only [hF] at h2
  have hlook : ∀ i, i < n → (insertAll ∅ (first :: rest)).lookup (i : Int) = some (c i) := by
    intro i hi
    apply lookup_insertAll
    · intro x hx hxi
      obtain ⟨i', _, hi', hv⟩ := hidx x hx
      have : i' = i := by
        have := hi'.symm.trans hxi
        exact_mod_cast this
      rw [hv, this]
    · exact Or.inr (hall i hi)
  have hlen : (insertAll ∅ (first :: rest)).entries.length = n := by
    apply length_of_keys
    intro j
    rw [mem_insertAll]
    constructor
    · rintro (h | ⟨x, hx, rfl⟩)
      · exact absurd h (AList.not_mem_empty j)
      · obtain ⟨i, hi, hi', _⟩ := hidx x hx
        exact ⟨i, hi, hi'⟩
    · rintro ⟨i, hi, rfl⟩
      exact Or.inr (hall i hi)
  have hget := Get_of_some (d.SetAll (first :: rest)) fl now k _ h2
  rw [hget, SetAll_ttl]
  simp only [subInt64_eq _ _ hrange]
  rw [if_neg (not_lt.2 hage)]
  simp only [joinChunks, hlen]
  rw [foldl_chunks _ c n hlook]
  simp

/-- The witness of C1: `Set(k,1,"b"); Set(k,0,"a")` on an empty store, read back
five seconds after the first call with a TTL of ten seconds, gives `"ab"`. -/
theorem C1_round_trip_witness :
    ((emptyStore 10).SetAll
        [⟨noFaults, 100, "k", 1, ascii "b"⟩, ⟨noFaults, 101, "k", 0, ascii "a"⟩]).Get
      noFaults 105 "k" = .ok (ascii "ab") :=
  C1_round_trip (emptyStore 10) "k" 2 (fun i => [ascii "a", ascii "b"].getD i [])
    ⟨noFaults, 100, "k", 1, ascii "b"⟩ [⟨noFaults, 101, "k", 0, ascii "a"⟩] noFaults 105
    (by rfl)
    (by simp)
    (by
      intro x hx
      simp only [List.mem_cons, List.mem_singleton, List.not_mem_nil, or_false] at hx
      rcases hx with rfl | rfl
      · exact ⟨1, by decide, rfl, rfl⟩
      · exact ⟨0, by decide, rfl, rfl⟩)
    (by
      intro i hi
      have : i = 0 ∨ i = 1 := by omega
      rcases this with rfl | rfl
      · exact ⟨_, List.mem_cons_of_mem _ (List.mem_cons_self _ _), rfl⟩
      · exact ⟨_, List.mem_cons_self _ _, rfl⟩)
    (by decide)
    (by decide)

/-- C2, evaluated where it fails: after `Set(k,0,"a"); Set(k,2,"c")` on an empty
store the entry has two chunks, so the loop of `Get` stops below index 2 and
`Get(k)` returns `"a"`, not `"ac"`. -/
theorem C2_gap_drops_chunk :
    (((emptyStore 10).Set noFaults 100 "k" 0 (ascii "a")).1.Set noFaults 100 "k" 2
        (ascii "c")).1.Get noFaults 100 "k" = .ok (ascii "a") ∧
    ascii "a" ≠ ascii "ac" := by
  constructor
  · rfl
  · decide

/-- C3: for a key whose sanitized form is in the memory index, `Get` at time
`now` fails with the error "Cache expired" exactly when
`now - timestamp > TTL`; when `now - timestamp ≤ TTL` it succeeds, and when it
is expired no bytes are returned. -/
theorem C3_ttl_decision (d : Store) (fl : Faults) (now : Int) (key : String)
    (item : MemCacheItem) (h : d.memCache.lookup (sanitize key) = some item)
    (hrange : -2 ^ 63 ≤ now - item.timestamp ∧ now - item.timestamp < 2 ^ 63) :
    (d.Get fl now key = .error .cacheExpired ↔ now - item.timestamp > d.ttl) ∧
    (now - item.timestamp ≤ d.ttl → d.Get fl now key = .ok (joinChunks item.content)) ∧
    (now - item.timestamp > d.ttl → ∀ b, d.Get fl now key ≠ .ok b) := by
  rw [Get_of_some d fl now key item h, subInt64_eq _ _ hrange]
  by_cases hexp : now - item.timestamp > d.ttl
  · rw [if_pos hexp]
    exact ⟨⟨fun _ => hexp, fun _ => rfl⟩, fun hle => absurd hexp (not_lt.2 hle),
      fun _ _ hb => (nomatch hb)⟩
  · rw [if_neg hexp]
    exact ⟨⟨fun hb => (nomatch hb), fun hgt => absurd hgt hexp⟩, fun _ => rfl,
      fun hgt => absurd hgt hexp⟩

/-- The witness of C3: an entry written at time 100 with a TTL of 10, read at
time 110 (age equal to the TTL). -/
theorem C3_ttl_decision_witness :
    (((emptyStore 10).Set noFaults 100 "k" 0 (ascii "a")).1.Get noFaults 110 "k"
        = .error .cacheExpired ↔ (110 : Int) - 100 > 10) ∧
    ((110 : Int) - 100 ≤ 10 →
      ((emptyStore 10).Set noFaults 100 "k" 0 (ascii "a")).1.Get noFaults 110 "k"
        = .ok (joinChunks ((∅ : AList (fun _ : Int => Bytes)).insert 0 (ascii "a")))) ∧
    ((110 : Int) - 100 > 10 →
      ∀ b, ((emptyStore 10).Set noFaults 100 "k" 0 (ascii "a")).1.Get noFaults 110 "k"
        ≠ .ok b) :=
  C3_ttl_decision ((emptyStore 10).Set noFaults 100 "k" 0 (ascii "a")).1 noFaults 110 "k"
    { content := (∅ : AList (fun _ : Int => Bytes)).insert 0 (ascii "a"), timestamp := 100 }
    (by rfl) (by decide)

/-- C4, evaluated where it fails: after `Set("br::foo",0,"x")`,
`Set("gzip::foo",0,"y")` and `Purge("foo")` on a new store, both variant
directories are still in the cache directory, with their chunks: `Purge` looks
for `.br::foo` and `.gzip::foo`, the names that follow `removeLoc`, which ends
in `/.`. -/
theorem C4_purge_keeps_directories :
    os.ReadDir noFaults
        ((((NewStore noFaults (.dir []) 10 100).Set noFaults 100 "br::foo" 0 (ascii "x")).1.Set
          noFaults 100 "gzip::foo" 0 (ascii "y")).1.Purge noFaults "foo").disk [CACHE_DIR]
      = .ok [("br::foo", true), ("gzip::foo", true)] ∧
    os.ReadFile noFaults
        ((((NewStore noFaults (.dir []) 10 100).Set noFaults 100 "br::foo" 0 (ascii "x")).1.Set
          noFaults 100 "gzip::foo" 0 (ascii "y")).1.Purge noFaults "foo").disk
        [CACHE_DIR, "br::foo", "0"]
      = .ok (ascii "x") ∧
    os.ReadFile noFaults
        ((((NewStore noFaults (.dir []) 10 100).Set noFaults 100 "br::foo" 0 (ascii "x")).1.Set
          noFaults 100 "gzip::foo" 0 (ascii "y")).1.Purge noFaults "foo").disk
        [CACHE_DIR, "gzip::foo", "0"]
      = .ok (ascii "y") := by
  refine ⟨?_, ?_, ?_⟩ <;> rfl

/-- C5: after `Purge(k)` the memory index has no entry for `"br::"+s` nor for
`"gzip::"+s`, where `s` is the sanitized key, and every other entry, the one of
the bare key `s` included, is as before; so a `Get(k)` that is served from the
index gives after the purge what it gave before. -/
theorem C5_purge_memory (d : Store) (fl : Faults) (k : String) :
    (d.Purge fl k).memCache.lookup ("br::" ++ sanitize k) = none ∧
    (d.Purge fl k).memCache.lookup ("gzip::" ++ sanitize k) = none ∧
    (∀ k', k' ≠ "br::" ++ sanitize k → k' ≠ "gzip::" ++ sanitize k →
      (d.Purge fl k).memCache.lookup k' = d.memCache.lookup k') ∧
    (d.Purge fl k).memCache.lookup (sanitize k) = d.memCache.lookup (sanitize k) ∧
    (∀ item, d.memCache.lookup (sanitize k) = some item →
      ∀ fl' now, (d.Purge fl k).Get fl' now k = d.Get fl' now k) := by
  have hbare : (d.Purge fl k).memCache.lookup (sanitize k) = d.memCache.lookup (sanitize k) :=
    Purge_lookup_of_ne d fl k _ (ne_variant_append _ _ (by decide))
      (ne_variant_append _ _ (by decide))
  refine ⟨?_, ?_, fun k' h1 h2 => Purge_lookup_of_ne d fl k k' h1 h2, hbare, ?_⟩
  · by_cases h : "br::" ++ sanitize k = "gzip::" ++ sanitize k
    · simp only [Store.Purge]
      rw [h, AList.lookup_erase]
    · simp only [Store.Purge]
      rw [AList.lookup_erase_ne h, AList.lookup_erase]
  · simp only [Store.Purge]
    rw [AList.lookup_erase]
  · intro item hitem fl' now
    rw [Get_of_some d fl' now k item hitem,
      Get_of_some (d.Purge fl k) fl' now k item (hbare.trans hitem), Purge_ttl]

/-- The witness of C5: after `Set("foo",0,"z")` and `Purge("foo")`, `Get("foo")`
returns `"z"`. -/
theorem C5_purge_memory_witness :
    (((emptyStore 10).Set noFaults 100 "foo" 0 (ascii "z")).1.Purge noFaults "foo").Get
      noFaults 105 "foo" = .ok (ascii "z") := by
  rw [(C5_purge_memory ((emptyStore 10).Set noFaults 100 "foo" 0 (ascii "z")).1 noFaults
    "foo").2.2.2.2
    { content := (∅ : AList (fun _ : Int => Bytes)).insert 0 (ascii "z"), timestamp := 100 }
    (by rfl) noFaults 105]
  rfl

/-- C6, evaluated where it fails: a key directory that holds only the file `2`
hydrates to an entry whose only chunk is at index 0; and of the files `0` to
`10` that eleven `Set` calls wrote, the file `10` is listed third and hydrates
to index 2, the file `2` to index 3. -/
theorem C6_hydration_uses_position :
    ((NewStore noFaults
        (.dir [(CACHE_DIR, .dir [("k", .dir [("2", .file (ascii "c"))])])]) 10 100).memCache.lookup
        "k").map (fun item => (item.content.lookup 0, item.content.lookup 2))
      = some (some (ascii "c"), none) ∧
    ((NewStore noFaults
        ((emptyStore 10).SetAll
          [⟨noFaults, 100, "k", 0, ascii "a"⟩, ⟨noFaults, 100, "k", 1, ascii "b"⟩,
           ⟨noFaults, 100, "k", 2, ascii "c"⟩, ⟨noFaults, 100, "k", 3, ascii "d"⟩,
           ⟨noFaults, 100, "k", 4, ascii "e"⟩, ⟨noFaults, 100, "k", 5, ascii "f"⟩,
           ⟨noFaults, 100, "k", 6, ascii "g"⟩, ⟨noFaults, 100, "k", 7, ascii "h"⟩,
           ⟨noFaults, 100, "k", 8, ascii "i"⟩, ⟨noFaults, 100, "k", 9, ascii "j"⟩,
           ⟨noFaults, 100, "k", 10, ascii "K"⟩]).disk 10 200).memCache.lookup
        "k").map (fun item => (item.content.lookup 2, item.content.lookup 3,
          item.content.lookup 10))
      = some (some (ascii "K"), some (ascii "c"), some (ascii "j")) := by
  constructor <;> rfl

/-- C8: `Set(key, idx, value)` at time `now` creates the entry with timestamp
`now` when the sanitized key is not in the memory index and keeps the timestamp
of the entry when it is; so after any sequence of `Set` calls the timestamp of
an entry is the time of the first `Set` for its key. -/
theorem C8_timestamp_once (d : Store) (k : String) :
    (∀ fl now idx value, d.memCache.lookup (sanitize k) = none →
      ∃ item, (d.Set fl now k idx value).1.memCache.lookup (sanitize k) = some item ∧
        item.timestamp = now) ∧
    (∀ fl now idx value item₀, d.memCache.lookup (sanitize k) = some item₀ →
      ∃ item, (d.Set fl now k idx value).1.memCache.lookup (sanitize k) = some item ∧
        item.timestamp = item₀.timestamp) ∧
    (∀ (calls : List SetCall) item₀, d.memCache.lookup (sanitize k) = some item₀ →
      ∃ item, (d.SetAll calls).memCache.lookup (sanitize k) = some item ∧
        item.timestamp = item₀.timestamp) ∧
    (∀ (before : List SetCall) (x : SetCall) (after : List SetCall),
      d.memCache.lookup (sanitize k) = none →
      (∀ y ∈ before, sanitize y.key ≠ sanitize k) → sanitize x.key = sanitize k →
      ∃ item, (d.SetAll (before ++ x :: after)).memCache.lookup (sanitize k) = some item ∧
        item.timestamp = x.now) := by
  refine ⟨fun fl now idx value h => ⟨_, Set_lookup_of_none d fl now k idx value h, rfl⟩,
    fun fl now idx value item₀ h => ⟨_, Set_lookup_of_some d fl now k idx value item₀ h, rfl⟩,
    fun calls item₀ h => SetAll_timestamp _ calls d item₀ h, ?_⟩
  intro before x after hnone hbefore hx
  have h0 : (d.SetAll before).memCache.lookup (sanitize k) = none := by
    rw [SetAll_lookup_of_ne _ before d hbefore]
    exact hnone
  have h1 := Set_lookup_of_none (d.SetAll before) x.fl x.now x.key x.idx x.value
    (by rw [hx]; exact h0)
  rw [hx] at h1
  obtain ⟨item, hitem, hts⟩ := SetAll_timestamp (sanitize k) after _ _ h1
  refine ⟨item, ?_, hts⟩
  rw [SetAll_append]
  exact hitem

/-- The witness of C8: `Set("a",..)` at time 100, `Set("k",..)` at time 101 and
again at time 150: the entry of `"k"` has timestamp 101. -/
theorem C8_timestamp_once_witness :
    ∃ item, ((emptyStore 10).SetAll
        ([⟨noFaults, 100, "a", 0, ascii "x"⟩] ++
          ⟨noFaults, 101, "k", 0, ascii "y"⟩ ::
            [⟨noFaults, 150, "k", 1, ascii "z"⟩])).memCache.lookup (sanitize "k") = some item ∧
      item.timestamp = 101 :=
  (C8_timestamp_once (emptyStore 10) "k").2.2.2 [⟨noFaults, 100, "a", 0, ascii "x"⟩]
    ⟨noFaults, 101, "k", 0, ascii "y"⟩ [⟨noFaults, 150, "k", 1, ascii "z"⟩] (by rfl)
    (by simp [sanitize]) rfl

/-- C9, where it fails: (1) after `Set("",0,"x")` on a new store the chunk is the
file `sidekick-cache/0`; `Flush` succeeds, and `Get("")` then lists the cache
directory itself and returns the empty byte string with no error, not "Key not
found in cache".  (2) When the removal succeeds and `os.MkdirAll` fails, `Flush`
still returns no error and the cache directory does not exist. -/
theorem C9_flush_counterexample :
    (os.RemoveAll noFaults
        ((NewStore noFaults (.dir []) 10 100).Set noFaults 100 "" 0 (ascii "x")).1.disk
        [CACHE_DIR]).2 = none ∧
    (((NewStore noFaults (.dir []) 10 100).Set noFaults 100 "" 0 (ascii "x")).1.Flush
        noFaults).1.Get noFaults 100 "" = .ok [] ∧
    (os.RemoveAll (failing .MkdirAll)
        ((NewStore noFaults (.dir []) 10 100).Set noFaults 100 "k" 0 (ascii "x")).1.disk
        [CACHE_DIR]).2 = none ∧
    (((NewStore noFaults (.dir []) 10 100).Set noFaults 100 "k" 0 (ascii "x")).1.Flush
        (failing .MkdirAll)).2 = none ∧
    os.ReadDir noFaults
        (((NewStore noFaults (.dir []) 10 100).Set noFaults 100 "k" 0 (ascii "x")).1.Flush
          (failing .MkdirAll)).1.disk [CACHE_DIR] = .error .ENOENT := by
  refine ⟨?_, ?_, ?_, ?_, ?_⟩ <;> rfl

/-- C9 as amended: after any sequence of `Set` calls, a `Flush` whose removal of
the cache directory succeeds returns no error and leaves the memory index
empty; when `os.MkdirAll` succeeds as well, the cache directory exists and is
empty; and every later `Get` of a key whose sanitized form is none of the empty
string, `.` and `..` fails with "Key not found in cache". -/
theorem C9_flush_empties (d : Store) (calls : List SetCall) (fl : Faults)
    (hok : (os.RemoveAll fl (d.SetAll calls).disk [CACHE_DIR]).2 = none) :
    ((d.SetAll calls).Flush fl).2 = none ∧
    ((d.SetAll calls).Flush fl).1.memCache = ∅ ∧
    (fl .MkdirAll [CACHE_DIR] = false →
      os.ReadDir noFaults ((d.SetAll calls).Flush fl).1.disk [CACHE_DIR] = .ok []) ∧
    (∀ key, isEntryName (sanitize key) = true → ∀ fl' now,
      ((d.SetAll calls).Flush fl).1.Get fl' now key = .error .keyNotFound) := by
  obtain ⟨es, herr, hmem, hdisk⟩ := Flush_of_ok (d.SetAll calls) fl hok
  refine ⟨herr, hmem, ?_, ?_⟩
  · intro hmk
    rw [hdisk, if_neg (by simp [hmk])]
    simp [os.ReadDir, noFaults, canon, Node.get, CACHE_DIR_isEntryName.1,
      CACHE_DIR_isEntryName.2, putEntry, lookupEntry]
  · intro key hkey fl' now
    have hdisk' : ((d.SetAll calls).Flush fl).1.disk = .dir (eraseEntry CACHE_DIR es) ∨
        ((d.SetAll calls).Flush fl).1.disk =
          .dir (putEntry CACHE_DIR (.dir []) (eraseEntry CACHE_DIR es)) := by
      rw [hdisk]
      by_cases hf : fl .MkdirAll [CACHE_DIR] = true
      · exact Or.inl (if_pos hf)
      · exact Or.inr (if_neg hf)
    obtain ⟨e, he⟩ := ReadDir_key_of_flushed fl' es (sanitize key) hkey _ hdisk'
    simp [Store.Get, hmem, he]

/-- The witness of C9 as amended: `Set("k",0,"x")` on a new store, then a
`Flush` in an environment without faults. -/
theorem C9_flush_empties_witness :
    (os.RemoveAll noFaults
        ((NewStore noFaults (.dir []) 10 100).SetAll [⟨noFaults, 100, "k", 0, ascii "x"⟩]).disk
        [CACHE_DIR]).2 = none ∧
    (((NewStore noFaults (.dir []) 10 100).SetAll [⟨noFaults, 100, "k", 0, ascii "x"⟩]).Flush
        noFaults).1.Get noFaults 100 "k" = .error .keyNotFound :=
  ⟨rfl, (C9_flush_empties (NewStore noFaults (.dir []) 10 100)
    [⟨noFaults, 100, "k", 0, ascii "x"⟩] noFaults rfl).2.2.2 "k" (by decide) noFaults 100⟩

/-- C10, where it fails: after `Set("a",0,"x"); Set("k",0,"y"); Set("z",0,"w")`
on a new store, a `Flush` during which the chunk file of `k` cannot be unlinked
returns an error, and the disk is not as it was: the directories of `a` and `z`
are gone with their chunks, and only that of `k` is left. -/
theorem C10_flush_counterexample :
    (((NewStore noFaults (.dir []) 10 100).SetAll
        [⟨noFaults, 100, "a", 0, ascii "x"⟩, ⟨noFaults, 100, "k", 0, ascii "y"⟩,
         ⟨noFaults, 100, "z", 0, ascii "w"⟩]).Flush (unremovable [CACHE_DIR, "k", "0"])).2
      ≠ none ∧
    ((NewStore noFaults (.dir []) 10 100).SetAll
        [⟨noFaults, 100, "a", 0, ascii "x"⟩, ⟨noFaults, 100, "k", 0, ascii "y"⟩,
         ⟨noFaults, 100, "z", 0, ascii "w"⟩]).disk.kindAt [CACHE_DIR, "a", "0"]
      = some (some (ascii "x")) ∧
    (((NewStore noFaults (.dir []) 10 100).SetAll
        [⟨noFaults, 100, "a", 0, ascii "x"⟩, ⟨noFaults, 100, "k", 0, ascii "y"⟩,
         ⟨noFaults, 100, "z", 0, ascii "w"⟩]).Flush
        (unremovable [CACHE_DIR, "k", "0"])).1.disk.kindAt [CACHE_DIR, "a", "0"] = none ∧
    (((NewStore noFaults (.dir []) 10 100).SetAll
        [⟨noFaults, 100, "a", 0, ascii "x"⟩, ⟨noFaults, 100, "k", 0, ascii "y"⟩,
         ⟨noFaults, 100, "z", 0, ascii "w"⟩]).Flush
        (unremovable [CACHE_DIR, "k", "0"])).1.disk.kindAt [CACHE_DIR, "a"] = none ∧
    (((NewStore noFaults (.dir []) 10 100).SetAll
        [⟨noFaults, 100, "a", 0, ascii "x"⟩, ⟨noFaults, 100, "k", 0, ascii "y"⟩,
         ⟨noFaults, 100, "z", 0, ascii "w"⟩]).Flush
        (unremovable [CACHE_DIR, "k", "0"])).1.disk.kindAt [CACHE_DIR, "z"] = none ∧
    (((NewStore noFaults (.dir []) 10 100).SetAll
        [⟨noFaults, 100, "a", 0, ascii "x"⟩, ⟨noFaults, 100, "k", 0, ascii "y"⟩,
         ⟨noFaults, 100, "z", 0, ascii "w"⟩]).Flush
        (unremovable [CACHE_DIR, "k", "0"])).1.disk.kindAt [CACHE_DIR, "k", "0"]
      = some (some (ascii "y")) := by
  refine ⟨by decide, ?_, ?_, ?_, ?_, ?_⟩ <;> rfl

/-- C10 as amended: `Flush` returns an error exactly when the removal of the
cache directory fails; the memory index is empty afterwards in every case.
When the removal fails, nothing is created again: the disk is as the removal
left it, which need not be as it was.  The cache directory is there as before,
and what is outside it is unchanged.  For a tree that a file system can hold,
the removal fails exactly when the location is not a directory, when the
look-up or the unlinking of the cache directory fails, or when some node below
the cache directory cannot be unlinked; after a failed removal a path at or
below the cache directory holds what it held when a node at or below it cannot
be unlinked, and nothing otherwise. -/
theorem C10_flush_error (d : Store) (fl : Faults) :
    ((d.Flush fl).2 ≠ none ↔ (os.RemoveAll fl d.disk [CACHE_DIR]).2 ≠ none) ∧
    (d.Flush fl).1.memCache = ∅ ∧
    ((d.Flush fl).2 ≠ none →
      (d.Flush fl).1.disk = (os.RemoveAll fl d.disk [CACHE_DIR]).1 ∧
      (d.Flush fl).1.disk.kindAt [CACHE_DIR] = d.disk.kindAt [CACHE_DIR] ∧
      (∀ p, p.head? ≠ some CACHE_DIR → (d.Flush fl).1.disk.kindAt p = d.disk.kindAt p)) ∧
    (d.disk.wf = true →
      ((d.Flush fl).2 ≠ none ↔
        (d.disk.isDir = false ∨ fl .RemoveAll [CACHE_DIR] = true ∨
          ∃ q, d.disk.kindAt (CACHE_DIR :: q) ≠ none ∧ fl .RemoveAll (CACHE_DIR :: q) = true)) ∧
      ((d.Flush fl).2 ≠ none → ∀ q,
        ((∃ r, d.disk.kindAt (CACHE_DIR :: (q ++ r)) ≠ none ∧
            fl .RemoveAll (CACHE_DIR :: (q ++ r)) = true) →
          (d.Flush fl).1.disk.kindAt (CACHE_DIR :: q) = d.disk.kindAt (CACHE_DIR :: q)) ∧
        ((¬ ∃ r, d.disk.kindAt (CACHE_DIR :: (q ++ r)) ≠ none ∧
            fl .RemoveAll (CACHE_DIR :: (q ++ r)) = true) →
          (d.Flush fl).1.disk.kindAt (CACHE_DIR :: q) = none))) := by
  obtain ⟨h1, h2⟩ := Flush_error_iff d fl
  refine ⟨h1, Flush_memCache d fl, fun h => ?_, fun hwf => ⟨?_, fun h q => ?_⟩⟩
  · refine ⟨h2 h, ?_, ?_⟩
    · rcases RemoveAll_cache_of_error fl d.disk (h1.1 h) with
        ⟨_, he⟩ | ⟨es, n, n1, ht, hl, hr, he⟩
      · rw [h2 h, he]
      · rw [h2 h, he, ht]
        simp [Node.kindAt, Node.get, lookupEntry_putEntry, get_nil, hl,
          removeAllFrom_kind fl _ n n1 hr]
    · intro p hp
      rcases RemoveAll_cache_of_error fl d.disk (h1.1 h) with ⟨_, he⟩ | ⟨es, n, n1, ht, _, _, he⟩
      · rw [h2 h, he]
      · rw [h2 h, he, ht]
        exact kindAt_putEntry_other es n1 p hp
  · exact h1.trans (RemoveAll_cache_error_iff fl d.disk hwf)
  · rcases RemoveAll_cache_of_error fl d.disk (h1.1 h) with
      ⟨hsame, he⟩ | ⟨es, n, n1, ht, hl, hr, he⟩
    · rw [h2 h, he]
      refine ⟨fun _ => rfl, fun _ => ?_⟩
      have hroot : d.disk.get [CACHE_DIR] = none := by
        rcases hsame with hfile | ⟨hnone, _⟩
        · cases hd : d.disk with
          | dir es => rw [hd] at hfile; cases hfile
          | file b => rfl
        · simpa [Node.kindAt] using hnone
      have := get_of_prefix_none d.disk [CACHE_DIR] q hroot
      simp only [Node.kindAt]
      rw [show CACHE_DIR :: q = [CACHE_DIR] ++ q from rfl, this]
      rfl
    · rw [h2 h, he, ht]
      exact kindAt_left fl es n n1 q (by simpa [Node.wf, ht] using hwf) hl hr

/-- The witness of C10 as amended: a `Flush` after `Set("a",0,"x")` and
`Set("k",0,"y")` on a new store, during which the chunk file of `k` cannot be
unlinked: it returns an error, the index is empty, the chunk of `k` is still on
disk, the directory of `a` is gone and the cache directory is still there. -/
theorem C10_flush_error_witness :
    (((NewStore noFaults (.dir []) 10 100).SetAll
        [⟨noFaults, 100, "a", 0, ascii "x"⟩, ⟨noFaults, 100, "k", 0, ascii "y"⟩]).Flush
        (unremovable [CACHE_DIR, "k", "0"])).2 ≠ none ∧
    (((NewStore noFaults (.dir []) 10 100).SetAll
        [⟨noFaults, 100, "a", 0, ascii "x"⟩, ⟨noFaults, 100, "k", 0, ascii "y"⟩]).Flush
        (unremovable [CACHE_DIR, "k", "0"])).1.memCache = ∅ ∧
    (((NewStore noFaults (.dir []) 10 100).SetAll
        [⟨noFaults, 100, "a", 0, ascii "x"⟩, ⟨noFaults, 100, "k", 0, ascii "y"⟩]).Flush
        (unremovable [CACHE_DIR, "k", "0"])).1.disk.kindAt [CACHE_DIR, "k", "0"]
      = some (some (ascii "y")) ∧
    (((NewStore noFaults (.dir []) 10 100).SetAll
        [⟨noFaults, 100, "a", 0, ascii "x"⟩, ⟨noFaults, 100, "k", 0, ascii "y"⟩]).Flush
        (unremovable [CACHE_DIR, "k", "0"])).1.disk.kindAt [CACHE_DIR, "a"] = none ∧
    (((NewStore noFaults (.dir []) 10 100).SetAll
        [⟨noFaults, 100, "a", 0, ascii "x"⟩, ⟨noFaults, 100, "k", 0, ascii "y"⟩]).Flush
        (unremovable [CACHE_DIR, "k", "0"])).1.disk.kindAt [CACHE_DIR] = some none :=
  have h := C10_flush_error ((NewStore noFaults (.dir []) 10 100).SetAll
    [⟨noFaults, 100, "a", 0, ascii "x"⟩, ⟨noFaults, 100, "k", 0, ascii "y"⟩])
    (unremovable [CACHE_DIR, "k", "0"])
  ⟨by decide, h.2.1,
    (((h.2.2.2 rfl).2 (by decide) ["k", "0"]).1 ⟨[], by decide, by decide⟩).trans rfl,
    ((h.2.2.2 rfl).2 (by decide) ["a"]).2 (by
      rintro ⟨r, _, hf⟩
      simp [unremovable, CACHE_DIR] at hf),
    (h.2.2.1 (by decide)).2.1.trans rfl⟩

/-- C11: whether the directory creation and the file write succeed or fail,
`Set` returns no error, and the memory index afterwards holds the given value
at the given index of the entry of the sanitized key, whatever was there
before. -/
theorem C11_set_never_fails (d : Store) (fl : Faults) (now : Int) (key : String) (idx : Int)
    (value : Bytes) :
    (d.Set fl now key idx value).2 = none ∧
    ∃ item, (d.Set fl now key idx value).1.memCache.lookup (sanitize key) = some item ∧
      item.content.lookup idx = some value := by
  refine ⟨rfl, ?_⟩
  cases h : d.memCache.lookup (sanitize key) with
  | none =>
    exact ⟨_, Set_lookup_of_none d fl now key idx value h, AList.lookup_insert _⟩
  | some item =>
    exact ⟨_, Set_lookup_of_some d fl now key idx value item h, AList.lookup_insert _⟩

/-- C12, where it fails: after `Set("k",0,"v")` on a new store over an empty
location, with the chunk written to `sidekick-cache/k/0`, the cache directory
holds the directory `k`, and the `"disk"` list of `List()` is empty. -/
theorem C12_list_counterexample :
    os.ReadDir noFaults
      ((NewStore noFaults (.dir []) 10 100).Set noFaults 100 "k" 0 (ascii "v")).1.disk [CACHE_DIR]
      = .ok [("k", true)] ∧
    os.ReadFile noFaults
      ((NewStore noFaults (.dir []) 10 100).Set noFaults 100 "k" 0 (ascii "v")).1.disk
      [CACHE_DIR, "k", "0"] = .ok (ascii "v") ∧
    (((NewStore noFaults (.dir []) 10 100).Set noFaults 100 "k" 0 (ascii "v")).1.List
      noFaults).disk = [] := by
  refine ⟨?_, ?_, ?_⟩ <;> rfl

/-- C12 as amended: the `"disk"` part of `List()` is the listing of the names
in the cache directory that are not directories, in the order of the listing
(and empty when the directory cannot be listed); after `Set(k,0,v)` on a new
store over an empty location, the sanitized key, the name of the directory of
`k`, is not in the `"disk"` list. -/
theorem C12_list_disk (d : Store) (fl : Faults) :
    (d.List fl).disk =
      (match os.ReadDir fl d.disk [CACHE_DIR] with
        | .ok files => (files.filter (fun file => !file.2)).map (fun file => file.1)
        | .error _ => []) ∧
    (∀ files, os.ReadDir fl d.disk [CACHE_DIR] = .ok files →
      ∀ name, name ∈ (d.List fl).disk ↔ (name, false) ∈ files) ∧
    ∀ (ttl now : Int) (key : String) (value : Bytes),
      sanitize key ∉
        (((NewStore noFaults (.dir []) ttl now).Set noFaults now key 0 value).1.List noFaults).disk
    := by
  refine ⟨?_, ?_, fun ttl now key value => Set_on_empty_disk ttl now key value⟩
  · simp only [Store.List]
    cases os.ReadDir fl d.disk [CACHE_DIR] with
    | error e => rfl
    | ok files => simp [listDisk_eq]
  · intro files hfiles name
    simp only [Store.List, hfiles, listDisk_eq, List.nil_append, List.mem_map, List.mem_filter]
    constructor
    · rintro ⟨⟨n, b⟩, ⟨hm, hb⟩, rfl⟩
      simp only [Bool.not_eq_true'] at hb
      subst hb
      exact hm
    · intro hm
      exact ⟨(name, false), ⟨hm, rfl⟩, rfl⟩

/-- C13: for a store constructed over an empty location, or just flushed, after
any sequence of `Set` calls the `"mem"` list of `List()` has no duplicates,
holds exactly the keys of the memory index, which are the sanitized keys of the
calls, and is as long as the number of distinct sanitized keys. -/
theorem C13_list_consistency (d : Store) (calls : List SetCall) (fl : Faults)
    (hd : (∃ fl₀ ttl now, d = NewStore fl₀ (.dir []) ttl now) ∨
      ∃ (d₀ : Store) (fl₀ : Faults), d = (d₀.Flush fl₀).1) :
    ((d.SetAll calls).List fl).mem.Nodup ∧
    (∀ k, k ∈ ((d.SetAll calls).List fl).mem ↔ k ∈ (d.SetAll calls).memCache) ∧
    (∀ k, k ∈ ((d.SetAll calls).List fl).mem ↔ ∃ x ∈ calls, sanitize x.key = k) ∧
    ((d.SetAll calls).List fl).mem.length
      = ((calls.map (fun x => sanitize x.key)).dedup).length := by
  have hempty : d.memCache = ∅ := by
    rcases hd with ⟨fl₀, ttl, now, rfl⟩ | ⟨d₀, fl₀, rfl⟩
    · exact NewStore_empty_root _ _ _
    · exact Flush_memCache _ _
  have hmem : ∀ k, k ∈ ((d.SetAll calls).List fl).mem ↔ ∃ x ∈ calls, sanitize x.key = k := by
    intro k
    show k ∈ (d.SetAll calls).memCache.keys ↔ _
    rw [← AList.mem_keys, mem_SetAll, hempty]
    simp [AList.not_mem_empty]
  refine ⟨AList.keys_nodup _, fun k => AList.mem_keys.symm, hmem, ?_⟩
  apply List.Perm.length_eq
  have hnd : ((d.SetAll calls).List fl).mem.Nodup := AList.keys_nodup _
  rw [List.perm_ext_iff_of_nodup hnd (List.nodup_dedup _)]
  intro k
  rw [hmem k, List.mem_dedup, List.mem_map]

/-- The witness of C13: `Set("a/b",..)`, `Set("c",..)` and `Set("a+b",..)` on a
new store over an empty location: two keys, `a+b` and `c`. -/
theorem C13_list_consistency_witness :
    (((NewStore noFaults (.dir []) 10 100).SetAll
        [⟨noFaults, 100, "a/b", 0, ascii "x"⟩, ⟨noFaults, 101, "c", 0, ascii "y"⟩,
         ⟨noFaults, 102, "a+b", 1, ascii "z"⟩]).List noFaults).mem.length = 2 :=
  (C13_list_consistency (NewStore noFaults (.dir []) 10 100)
    [⟨noFaults, 100, "a/b", 0, ascii "x"⟩, ⟨noFaults, 101, "c", 0, ascii "y"⟩,
     ⟨noFaults, 102, "a+b", 1, ascii "z"⟩] noFaults (Or.inl ⟨_, _, _, rfl⟩)).2.2.2.trans
    (by decide)

/-- C14: for two keys with the same sanitized form, `Get` returns the same
result on every store, and `Set` with the same index and value, and `Purge`,
lead to the same store, memory and disk. -/
theorem C14_sanitized_key (k₁ k₂ : String) (h : sanitize k₁ = sanitize k₂) (d : Store)
    (fl : Faults) (now : Int) (idx : Int) (value : Bytes) :
    d.Get fl now k₁ = d.Get fl now k₂ ∧
    d.Set fl now k₁ idx value = d.Set fl now k₂ idx value ∧
    d.Purge fl k₁ = d.Purge fl k₂ := by
  refine ⟨?_, ?_, ?_⟩
  · unfold Store.Get
    rw [h]
  · unfold Store.Set
    rw [h]
  · unfold Store.Purge
    rw [h]

/-- The witness of C14: `Set("a/b",0,"v")` followed by `Get("a+b")` returns
`"v"`. -/
theorem C14_sanitized_key_witness :
    ((emptyStore 10).Set noFaults 100 "a/b" 0 (ascii "v")).1.Get noFaults 100 "a+b"
      = .ok (ascii "v") := by
  rw [(C14_sanitized_key "a+b" "a/b" (by decide)
    ((emptyStore 10).Set noFaults 100 "a/b" 0 (ascii "v")).1 noFaults 100 0 []).1]
  rfl

/-- C15: for a key that is not in the memory index, `Get` fails with "Key not
found in cache" exactly when the listing of the directory of the key fails or
one of its files cannot be read; otherwise it succeeds and returns the contents
of the files of the directory, sub-directories skipped, joined in the order of
the listing.  The result depends neither on the clock nor on the TTL, and is
never "Cache expired". -/
theorem C15_get_disk_path (d : Store) (fl : Faults) (now : Int) (key : String)
    (habsent : d.memCache.lookup (sanitize key) = none) :
    (d.Get fl now key = .error .keyNotFound ↔
      (∃ e, os.ReadDir fl d.disk [CACHE_DIR, sanitize key] = .error e) ∨
      ∃ files, os.ReadDir fl d.disk [CACHE_DIR, sanitize key] = .ok files ∧
        ∃ x ∈ files, x.2 = false ∧
          ∃ e, os.ReadFile fl d.disk [CACHE_DIR, sanitize key, x.1] = .error e) ∧
    (∀ files, os.ReadDir fl d.disk [CACHE_DIR, sanitize key] = .ok files →
      (∀ x ∈ files, x.2 = false →
        ∃ b, os.ReadFile fl d.disk [CACHE_DIR, sanitize key, x.1] = .ok b) →
      d.Get fl now key = .ok ((files.filter (fun x => !x.2)).map
        (fun x => fileBytes fl d.disk [CACHE_DIR, sanitize key, x.1])).flatten) ∧
    (∀ now' ttl', ({ d with ttl := ttl' } : Store).Get fl now' key = d.Get fl now key) ∧
    d.Get fl now key ≠ .error .cacheExpired := by
  have hget := Get_of_none d fl now key habsent
  refine ⟨?_, ?_, ?_, ?_⟩
  · rw [hget]
    cases hr : os.ReadDir fl d.disk [CACHE_DIR, sanitize key] with
    | error e => simp
    | ok files =>
      simp only [false_or, Except.ok.injEq, exists_eq_left', reduceCtorEq, exists_false]
      rcases all_ok_or_fail fl d.disk (sanitize key) files with hall | ⟨x, hx, hfile, e, he⟩
      · rw [readFiles_of_all_ok _ _ _ _ hall]
        constructor
        · intro h
          cases h
        · rintro ⟨x, hx, hfile, e, he⟩
          obtain ⟨b, hb⟩ := hall x hx hfile
          rw [hb] at he
          cases he
      · rw [readFiles_of_fail _ _ _ _ x hx hfile e he]
        exact ⟨fun _ => ⟨x, hx, hfile, e, he⟩, fun _ => rfl⟩
  · intro files hr hall
    rw [hget, hr]
    simp only
    rw [readFiles_of_all_ok _ _ _ _ hall]
    simp
  · intro now' ttl'
    rw [hget]
    exact Get_of_none { d with ttl := ttl' } fl now' key habsent
  · rw [hget]
    split
    · simp
    · exact readFiles_ne_expired _ _ _ _ _

/-- The witness of C15: a store with an empty index and a TTL of 0, over the
disk that `Set("k",0,"a")` and `Set("k",1,"b")` left, read long after the
writes: `Get("k")` returns `"ab"`. -/
theorem C15_get_disk_path_witness :
    ({ disk := ((emptyStore 0).SetAll
          [⟨noFaults, 100, "k", 0, ascii "a"⟩, ⟨noFaults, 100, "k", 1, ascii "b"⟩]).disk,
       ttl := 0, memCache := ∅ } : Store).Get noFaults 5000 "k" = .ok (ascii "ab") :=
  (C15_get_disk_path
    { disk := ((emptyStore 0).SetAll
        [⟨noFaults, 100, "k", 0, ascii "a"⟩, ⟨noFaults, 100, "k", 1, ascii "b"⟩]).disk,
      ttl := 0, memCache := ∅ } noFaults 5000 "k" rfl).2.1 [("0", false), ("1", false)] rfl
    (by
      intro x hx _
      simp only [List.mem_cons, List.mem_singleton, List.not_mem_nil, or_false] at hx
      rcases hx with rfl | rfl
      · exact ⟨ascii "a", rfl⟩
      · exact ⟨ascii "b", rfl⟩)

/-- C16: sanitizing twice gives what sanitizing once gives, and a sanitized key
holds no `/`. -/
theorem C16_sanitize_idempotent (k : String) :
    sanitize (sanitize k) = sanitize k ∧ '/' ∉ (sanitize k).data :=
  ⟨sanitize_idem k, sanitize_no_slash k⟩

/-- C17: when `Get(k)` fails with "Cache expired" at time `t`, then after any
sequence of `Set(k, i, v)` and `Purge(k)` calls a `Get(k)` at a time `t' ≥ t`
fails with "Cache expired" as well (the ages are differences of clock readings
that fit an `int64`). -/
theorem C17_expired_stays_expired (d : Store) (k : String) (fl fl' : Faults) (t t' : Int)
    (ops : List KeyOp) (hexp : d.Get fl t k = .error .cacheExpired) (hle : t ≤ t')
    (hrange : ∀ item, d.memCache.lookup (sanitize k) = some item →
      -2 ^ 63 ≤ t - item.timestamp ∧ t' - item.timestamp < 2 ^ 63) :
    (d.applyOps k ops).Get fl' t' k = .error .cacheExpired := by
  obtain ⟨item, hitem, hgt⟩ := Get_expired_lookup d fl t k hexp
  obtain ⟨hr1, hr2⟩ := hrange item hitem
  obtain ⟨item', hitem', hts⟩ := applyOps_timestamp k ops d item hitem
  rw [Get_of_some _ fl' t' k item' hitem', applyOps_ttl, hts]
  rw [subInt64_eq t item.timestamp ⟨hr1, by omega⟩] at hgt
  rw [subInt64_eq t' item.timestamp ⟨by omega, hr2⟩]
  exact if_pos (by omega)

/-- The witness of C17: an entry of time 100 with a TTL of 10 is expired at
time 111; after `Set("k",1,"b")` at time 112, `Purge("k")` and
`Set("k",0,"c")` at time 113, `Get("k")` at time 114 is expired. -/
theorem C17_expired_stays_expired_witness :
    (((emptyStore 10).Set noFaults 100 "k" 0 (ascii "a")).1.applyOps "k"
        [.set noFaults 112 1 (ascii "b"), .purge noFaults,
         .set noFaults 113 0 (ascii "c")]).Get noFaults 114 "k" = .error .cacheExpired :=
  C17_expired_stays_expired ((emptyStore 10).Set noFaults 100 "k" 0 (ascii "a")).1 "k"
    noFaults noFaults 111 114 _ rfl (by decide)
    (by
      intro item hitem
      rw [Set_lookup_of_none (emptyStore 10) noFaults 100 "k" 0 (ascii "a") rfl] at hitem
      cases hitem
      decide)

/-- C18, where it fails: a store constructed while the cache directory could not
be made has no cache directory; `Set("k",0,"x")` then makes `sidekick-cache`
itself, which is neither the chunk file `sidekick-cache/k/0` nor its parent
directory `sidekick-cache/k`. -/
theorem C18_set_frame_counterexample :
    (NewStore (failing .MkdirAll) (.dir []) 10 100).disk.kindAt [CACHE_DIR] = none ∧
    ((NewStore (failing .MkdirAll) (.dir []) 10 100).Set noFaults 100 "k" 0
      (ascii "x")).1.disk.kindAt [CACHE_DIR] = some none ∧
    ((NewStore (failing .MkdirAll) (.dir []) 10 100).Set noFaults 100 "k" 0
      (ascii "x")).1.disk.kindAt [CACHE_DIR, "k", Itoa 0] = some (some (ascii "x")) ∧
    [CACHE_DIR] ≠ [CACHE_DIR, "k", Itoa 0] ∧ [CACHE_DIR] ≠ [CACHE_DIR, "k"] := by
  refine ⟨rfl, rfl, rfl, by decide, by decide⟩

/-- C18 as amended: after `Set(k, i, v)` every entry of the memory index whose
key differs from the sanitized `k` is as before, and so is every chunk of the
sanitized `k` at an index other than `i`; on disk, what a path holds changes
only at the chunk file, the path that `{sanitized k}/{i}` resolves to in the
cache directory, and at the cache directory and the directory of the key, and
at these two only when they were missing and are made.  When the sanitized `k`
names a directory, the chunk file is `sidekick-cache/{sanitized k}/{i}`. -/
theorem C18_set_frame (d : Store) (fl : Faults) (now : Int) (key : String) (idx : Int)
    (value : Bytes) :
    (∀ k, k ≠ sanitize key →
      (d.Set fl now key idx value).1.memCache.lookup k = d.memCache.lookup k) ∧
    (∀ j, j ≠ idx →
      ((d.Set fl now key idx value).1.memCache.lookup (sanitize key)).bind
          (fun item => item.content.lookup j)
        = (d.memCache.lookup (sanitize key)).bind (fun item => item.content.lookup j)) ∧
    (∀ q, (d.Set fl now key idx value).1.disk.kindAt q ≠ d.disk.kindAt q →
      ((q = [CACHE_DIR] ∨ q = [CACHE_DIR, sanitize key]) ∧ d.disk.kindAt q = none) ∨
      canon (os.MkdirAll fl d.disk [CACHE_DIR, sanitize key]).1 []
        [CACHE_DIR, sanitize key, Itoa idx] = .ok q) ∧
    (isEntryName (sanitize key) = true →
      ∀ q, (d.Set fl now key idx value).1.disk.kindAt q ≠ d.disk.kindAt q →
        ((q = [CACHE_DIR] ∨ q = [CACHE_DIR, sanitize key]) ∧ d.disk.kindAt q = none) ∨
        q = [CACHE_DIR, sanitize key, Itoa idx]) := by
  refine ⟨fun k hk => Set_lookup_of_ne d fl now key idx value k hk, ?_,
    fun q hq => Set_disk_kindAt d fl now key idx value q hq, ?_⟩
  · intro j hj
    cases h : d.memCache.lookup (sanitize key) with
    | none =>
      rw [Set_lookup_of_none d fl now key idx value h]
      simp only [Option.bind]
      rw [AList.lookup_insert_ne hj]
      rfl
    | some item =>
      rw [Set_lookup_of_some d fl now key idx value item h]
      simp [AList.lookup_insert_ne hj]
  · intro hs q hq
    rcases Set_disk_kindAt d fl now key idx value q hq with h | h
    · exact Or.inl h
    · right
      obtain ⟨e0, he0⟩ := canon_cons_ok _ [] _ _ _ h
      rw [canon_entry _ [] CACHE_DIR e0 (by decide) he0] at h
      simp only [List.nil_append] at h
      obtain ⟨ec, hec⟩ := canon_cons_ok _ _ _ _ _ h
      rw [canon_entry _ _ (sanitize key) ec hs hec] at h
      simp only [List.singleton_append] at h
      obtain ⟨es, hes⟩ := canon_cons_ok _ _ _ _ _ h
      rw [canon_entry _ _ (Itoa idx) es (Itoa_isEntryName idx) hes] at h
      exact (Except.ok.inj h).symm

/-- The witness of C18 as amended: on a store that holds the key `a`,
`Set("k",0,"x")` leaves the chunk of `a` on disk as it was. -/
theorem C18_set_frame_witness :
    (((NewStore noFaults (.dir []) 10 100).Set noFaults 100 "a" 0 (ascii "y")).1.Set noFaults
        101 "k" 0 (ascii "x")).1.disk.kindAt [CACHE_DIR, "a", "0"]
      = ((NewStore noFaults (.dir []) 10 100).Set noFaults 100 "a" 0
          (ascii "y")).1.disk.kindAt [CACHE_DIR, "a", "0"] := by
  by_contra h
  rcases (C18_set_frame ((NewStore noFaults (.dir []) 10 100).Set noFaults 100 "a" 0
    (ascii "y")).1 noFaults 101 "k" 0 (ascii "x")).2.2.2 (by decide) _ h with
    ⟨h1 | h1, _⟩ | h1
  · exact absurd h1 (by decide)
  · exact absurd h1 (by decide)
  · exact absurd h1 (by decide)

/-- C19, where it fails: the key `..` on a new store over a location that holds
the file `secret`.  The key is not in the index and there is no directory entry
`sidekick-cache/..`; `Set("..",0,"a")` succeeds and writes the file `0` into the
location itself.  The disk path of `Get("..")` lists the location and returns
`as`, the memory path returns `a`.  Likewise for the empty key after
`Set(".",5,"z")`: both keys name the cache directory, the disk path of `Get("")`
returns `az`, the memory path `a`. -/
theorem C19_read_paths_counterexample :
    isEntryName (sanitize "..") = false ∧
    (NewStore noFaults (.dir [("secret", .file (ascii "s"))]) 10 100).memCache.lookup
        (sanitize "..") = none ∧
    (NewStore noFaults (.dir [("secret", .file (ascii "s"))]) 10 100).disk.kindAt [CACHE_DIR]
      = some none ∧
    (NewStore noFaults (.dir [("secret", .file (ascii "s"))]) 10 100).disk.get
        [CACHE_DIR, sanitize ".."] = none ∧
    ({ (NewStore noFaults (.dir [("secret", .file (ascii "s"))]) 10 100).SetAll
          [⟨noFaults, 100, "..", 0, ascii "a"⟩] with memCache := ∅ } : Store).Get noFaults 100 ".."
      = .ok (ascii "as") ∧
    ((NewStore noFaults (.dir [("secret", .file (ascii "s"))]) 10 100).SetAll
        [⟨noFaults, 100, "..", 0, ascii "a"⟩]).Get noFaults 100 ".." = .ok (ascii "a") ∧
    isEntryName (sanitize "") = false ∧
    ((NewStore noFaults (.dir []) 10 100).SetAll
        [⟨noFaults, 100, ".", 5, ascii "z"⟩]).memCache.lookup (sanitize "") = none ∧
    ((NewStore noFaults (.dir []) 10 100).SetAll
        [⟨noFaults, 100, ".", 5, ascii "z"⟩]).disk.get [CACHE_DIR, sanitize ""] = none ∧
    ({ ((NewStore noFaults (.dir []) 10 100).SetAll
          [⟨noFaults, 100, ".", 5, ascii "z"⟩]).SetAll [⟨noFaults, 100, "", 0, ascii "a"⟩] with
        memCache := ∅ } : Store).Get noFaults 100 "" = .ok (ascii "az") ∧
    (((NewStore noFaults (.dir []) 10 100).SetAll
        [⟨noFaults, 100, ".", 5, ascii "z"⟩]).SetAll
        [⟨noFaults, 100, "", 0, ascii "a"⟩]).Get noFaults 100 "" = .ok (ascii "a") := by
  refine ⟨?_, ?_, ?_, ?_, ?_, ?_, ?_, ?_, ?_, ?_, ?_⟩ <;> rfl

/-- C19 as amended: with the listing of a directory sorted by file name, for a
key whose sanitized form is none of the empty string, `.` and `..`, so that it
names a directory, is not in the memory index and has no directory on disk,
after `Set` has written exactly the chunks `0` to `n-1`, every disk call
succeeding, the disk path of `Get` (the same disk, the key not in the index)
returns the bytes that the memory path returns within the TTL whenever
`n ≤ 10`; with the eleven chunks `a` to `j` and `K` the two differ: the file
`10` is listed before the file `2`, and the disk path returns `abKcdefghij`. -/
theorem C19_read_paths_agree (d : Store) (k : String) (n : Nat) (c : Nat → Bytes)
    (first : SetCall) (rest : List SetCall) (fl : Faults) (now now' : Int)
    (e0 : List (String × Node)) (hn : n ≤ 10) (hname : isEntryName (sanitize k) = true)
    (habsent : d.memCache.lookup (sanitize k) = none)
    (hloc : d.disk = .dir e0)
    (hroot : ∀ b, d.disk.get [CACHE_DIR] ≠ some (.file b))
    (hfresh : d.disk.get [CACHE_DIR, sanitize k] = none)
    (hkey : ∀ x ∈ first :: rest, x.key = k)
    (hfl : ∀ x ∈ first :: rest, x.fl .MkdirAll [CACHE_DIR, sanitize k] = false ∧
      x.fl .WriteFile [CACHE_DIR, sanitize k, Itoa x.idx] = false)
    (hidx : ∀ x ∈ first :: rest, ∃ i, i < n ∧ x.idx = (i : Int) ∧ x.value = c i)
    (hall : ∀ i, i < n → ∃ x ∈ first :: rest, x.idx = (i : Int))
    (hrange : -2 ^ 63 ≤ now - first.now ∧ now - first.now < 2 ^ 63)
    (hage : now - first.now ≤ d.ttl) :
    (({ d.SetAll (first :: rest) with memCache := ∅ } : Store).Get noFaults now' k
      = (d.SetAll (first :: rest)).Get fl now k) ∧
    (d.SetAll (first :: rest)).Get fl now k = .ok ((List.range n).map c).flatten ∧
    ({ (emptyStore 10).SetAll elevenCalls with memCache := ∅ } : Store).Get noFaults 100 "k"
      = .ok (ascii "abKcdefghij") ∧
    ((emptyStore 10).SetAll elevenCalls).Get noFaults 100 "k" = .ok (ascii "abcdefghijK") := by
  have hmem := Get_memory_of_SetAll d k n c first rest fl now habsent hkey hidx hall hrange hage
  have hdisk := Get_disk_of_SetAll d k n c first rest now' e0 hn hname hloc hroot hfresh hkey
    hfl hidx hall
  exact ⟨hdisk.trans hmem.symm, hmem, rfl, rfl⟩

/-- The witness of C19: `Set("k",1,"b"); Set("k",0,"a")` on an empty store: the
disk path returns `"ab"`, as the memory path does. -/
theorem C19_read_paths_agree_witness :
    ({ (emptyStore 10).SetAll
          [⟨noFaults, 100, "k", 1, ascii "b"⟩, ⟨noFaults, 101, "k", 0, ascii "a"⟩] with
        memCache := ∅ } : Store).Get noFaults 5000 "k" = .ok (ascii "ab") :=
  have h := C19_read_paths_agree (emptyStore 10) "k" 2 (fun i => [ascii "a", ascii "b"].getD i [])
    ⟨noFaults, 100, "k", 1, ascii "b"⟩ [⟨noFaults, 101, "k", 0, ascii "a"⟩] noFaults 105 5000 []
    (by decide) (by decide) (by rfl) rfl (fun b h => by cases h) rfl (by simp)
    (by
      intro x hx
      simp only [List.mem_cons, List.mem_singleton, List.not_mem_nil, or_false] at hx
      rcases hx with rfl | rfl <;> exact ⟨rfl, rfl⟩)
    (by
      intro x hx
      simp only [List.mem_cons, List.mem_singleton, List.not_mem_nil, or_false] at hx
      rcases hx with rfl | rfl
      · exact ⟨1, by decide, rfl, rfl⟩
      · exact ⟨0, by decide, rfl, rfl⟩)
    (by
      intro i hi
      have : i = 0 ∨ i = 1 := by omega
      rcases this with rfl | rfl
      · exact ⟨_, List.mem_cons_of_mem _ (List.mem_cons_self _ _), rfl⟩
      · exact ⟨_, List.mem_cons_self _ _, rfl⟩)
    (by decide) (by decide)
  h.1.trans h.2.1

end Cache
